import Mathlib

/-!
# M5StickC-Plus T-Lite firmware: JPEG encoder and MLX90640 calibration model

A shallow embedding of the parts of `src/jpg/jpge.cpp`, `src/mlx90640.cpp` and
`src/command_processor.cpp` that the verified properties are about.

Conventions.
* C `uint`/`uint32` values are natural numbers kept below `2 ^ 32`; every
  operation that can wrap is written with an explicit `% 2 ^ 32`.
* C `int` values are integers; the places where a conversion to an unsigned
  type matters are written out.
* Memory that the code addresses through a pointer is a function from the
  offset to the stored byte (or word); a pointer is its offset from the start
  of the object it points into.
* `jpge.h` is not part of the sources at hand, so `JPGE_OUT_BUF_SIZE` and
  `JPGE_OUT_BUF_COUNT` are parameters of every definition that uses them.
-/

namespace jpge

/-! ## Machine arithmetic -/

/-- Subtraction of two `uint32` values, wrapping modulo `2 ^ 32`. -/
def sub32 (a b : Nat) : Nat := (a % 2 ^ 32 + 2 ^ 32 - b % 2 ^ 32) % 2 ^ 32

/-- Left shift of a `uint32` value, the bits shifted out at the top are lost. -/
def shl32 (a n : Nat) : Nat := (a * 2 ^ n) % 2 ^ 32

/-! ## The output sink -/

/-- The `output_stream` behind `m_pStream`.  `log` records the byte block of every
`put_buf` call in call order (a zero-length call is recorded as `[]`), and
`accepts n` is the result the sink gives to its `n`-th call. -/
structure output_stream where
  log : List (List Nat)
  accepts : Nat → Bool

/-- One call `put_buf(Pbuf, len)`: the sink sees the `len` bytes and answers. -/
def output_stream.put_buf (st : output_stream) (bytes : List Nat) : Bool × output_stream :=
  (st.accepts st.log.length, { st with log := st.log ++ [bytes] })

/-! ## Encoder state -/

/-- The output side of `jpeg_encoder`: the fields that `flush_output_buffer`, `emit_byte`,
`emit_word` and `emit_marker` read or write.  `m_pOut_buf` is the offset of the write pointer
from the start of `m_out_buf_array[m_out_buf_index]`. -/
structure out_state where
  m_pStream : output_stream
  m_all_stream_writes_succeeded : Bool
  m_out_buf_array : Nat → Nat → Nat
  m_out_buf_index : Nat
  m_pOut_buf : Nat
  m_out_buf_left : Nat

/-- The fields of `jpeg_encoder` (and the file-level statics of `jpge.cpp`) that the
modelled methods read or write; `m_mcu_lines_0` tells whether `m_mcu_lines[0]` is
non-null. -/
structure jpeg_encoder extends out_state where
  m_bit_buffer : Nat
  m_bits_in : Nat
  m_pass_num : Int
  m_mcu_y_ofs : Nat
  m_mcu_y : Nat
  m_mcu_lines_0 : Bool
  m_num_components : Nat
  m_comp_h_samp : Nat → Nat
  m_comp_v_samp : Nat → Nat
  m_image_x : Nat
  m_image_y : Nat
  m_params_quality : Int
  m_last_quality : Int
  m_quantization8_tables : Nat → Nat → Nat
  m_quantization32_tables : Nat → Nat → Int
  m_huff_bits : Nat → Nat → Nat
  m_huff_val : Nat → Nat → Nat
  m_last_dc_val : Nat → Int

instance : Coe jpeg_encoder out_state := ⟨jpeg_encoder.toout_state⟩

/-- Store one byte (`uint8` conversion included) at offset `ofs` of buffer `idx`. -/
def store8 (arr : Nat → Nat → Nat) (idx ofs v : Nat) : Nat → Nat → Nat :=
  fun i o => if i = idx ∧ o = ofs then v % 256 else arr i o

/-- Model of `jpeg_encoder::flush_output_buffer`: nothing happens when the buffer is empty,
otherwise the buffer is handed to the sink (only while no write has failed), and the next
buffer of the ring becomes current. -/
def flush_output_buffer (SIZE COUNT : Nat) (e : out_state) : out_state :=
  let len := sub32 SIZE e.m_out_buf_left
  if len = 0 then e
  else
    let r :=
      if e.m_all_stream_writes_succeeded then
        e.m_pStream.put_buf ((List.range len).map (e.m_out_buf_array e.m_out_buf_index))
      else (false, e.m_pStream)
    { e with
      m_out_buf_left := SIZE % 2 ^ 32
      m_all_stream_writes_succeeded := r.1
      m_pStream := r.2
      m_out_buf_index := if e.m_out_buf_index + 1 < COUNT then e.m_out_buf_index + 1 else 0
      m_pOut_buf := 0 }

/-- Model of `jpeg_encoder::emit_byte`. -/
def emit_byte (SIZE COUNT : Nat) (e : out_state) (i : Nat) : out_state :=
  let e1 := { e with
    m_out_buf_array := store8 e.m_out_buf_array e.m_out_buf_index e.m_pOut_buf i
    m_pOut_buf := e.m_pOut_buf + 1
    m_out_buf_left := sub32 e.m_out_buf_left 1 }
  if e1.m_out_buf_left = 0 then flush_output_buffer SIZE COUNT e1 else e1

/-- The loop of `jpeg_encoder::put_bits` (a `do ... while (bits_in <= 24)`), returning the
encoder together with the local variables `bit_buffer` and `bits_in`.  Every pass adds 8 to
a `bits_in` that is at most 24, so four passes always reach the exit test. -/
def put_bits_loop (SIZE COUNT : Nat) :
    Nat → out_state → Nat → Nat → out_state × Nat × Nat
  | 0, e, bit_buffer, bits_in => (e, bit_buffer, bits_in)
  | fuel + 1, e, bit_buffer, bits_in =>
    let c := bit_buffer / 2 ^ 24
    let e1 := emit_byte SIZE COUNT e c
    let e2 := if c = 0xFF then emit_byte SIZE COUNT e1 0 else e1
    let bit_buffer1 := shl32 bit_buffer 8
    let bits_in1 := (bits_in + 8) % 2 ^ 32
    if bits_in1 ≤ 24 then put_bits_loop SIZE COUNT fuel e2 bit_buffer1 bits_in1
    else (e2, bit_buffer1, bits_in1)

/-- Model of `jpeg_encoder::put_bits`. -/
def put_bits (SIZE COUNT : Nat) (e : jpeg_encoder) (bits len : Nat) : jpeg_encoder :=
  let bits_in := sub32 e.m_bits_in len
  let bit_buffer := (e.m_bit_buffer + shl32 bits bits_in) % 2 ^ 32
  let r :=
    if bits_in ≤ 24 then put_bits_loop SIZE COUNT 4 e.toout_state bit_buffer bits_in
    else (e.toout_state, bit_buffer, bits_in)
  { e with toout_state := r.1, m_bits_in := r.2.2, m_bit_buffer := r.2.1 }

/-! ## Quantization tables -/

/-- The table `s_std_lum_quant`. -/
def s_std_lum_quant : List Nat :=
  [16, 11, 12, 14, 12, 10, 16, 14, 13, 14, 18, 17, 16, 19, 24, 40,
   26, 24, 22, 22, 24, 49, 35, 37, 29, 40, 58, 51, 61, 60, 57, 51,
   56, 55, 64, 72, 92, 78, 64, 68, 87, 69, 55, 56, 80, 109, 81, 87,
   95, 98, 103, 104, 103, 62, 77, 113, 121, 112, 100, 120, 92, 101, 103, 99]

/-- The table `s_std_croma_quant`. -/
def s_std_croma_quant : List Nat :=
  [17, 18, 18, 24, 21, 24, 47, 26, 26, 47, 99, 66, 56, 66, 99, 99,
   99, 99, 99, 99, 99, 99, 99, 99, 99, 99, 99, 99, 99, 99, 99, 99,
   99, 99, 99, 99, 99, 99, 99, 99, 99, 99, 99, 99, 99, 99, 99, 99,
   99, 99, 99, 99, 99, 99, 99, 99, 99, 99, 99, 99, 99, 99, 99, 99]

/-- The macro `JPGE_MAX`. -/
def JPGE_MAX (a b : Int) : Int := if a > b then a else b

/-- The macro `JPGE_MIN`. -/
def JPGE_MIN (a b : Int) : Int := if a < b then a else b

/-- Model of `jpeg_encoder::compute_quant_table`: the 64 values stored through `pDst`
(narrowed to `uint8`) and through `pDst32`.  `/` of C is the truncating division; the
products stay far inside `int32` for `uint8` table entries and a quality in `1 .. 100`. -/
def compute_quant_table (m_quality : Int) (pSrc : List Nat) : List Nat × List Int :=
  let q : Int := if m_quality < 50 then Int.tdiv 5000 m_quality else 200 - m_quality * 2
  let js := (List.range 64).map (fun i =>
    let j : Int := (pSrc.getD i 0 : Nat)
    let j := Int.tdiv (j * q + 50) 100
    JPGE_MIN (JPGE_MAX j 1) 255)
  (js.map (fun j => (j % 256).toNat), js.map (fun j => j * 2 ^ 18))

/-- Model of `jpeg_encoder::emit_word`: room for two bytes is made first, then both bytes
are stored and `m_out_buf_left` drops by 2 without a test for zero. -/
def emit_word (SIZE COUNT : Nat) (e : out_state) (i : Nat) : out_state :=
  let e := if e.m_out_buf_left < 2 then flush_output_buffer SIZE COUNT e else e
  { e with
    m_out_buf_array :=
      store8 (store8 e.m_out_buf_array e.m_out_buf_index e.m_pOut_buf (i / 2 ^ 8))
        e.m_out_buf_index (e.m_pOut_buf + 1) i
    m_pOut_buf := e.m_pOut_buf + 2
    m_out_buf_left := sub32 e.m_out_buf_left 2 }

/-- Model of `jpeg_encoder::emit_marker`. -/
def emit_marker (SIZE COUNT : Nat) (e : out_state) (marker : Nat) : out_state :=
  let e := if e.m_out_buf_left < 2 then flush_output_buffer SIZE COUNT e else e
  { e with
    m_out_buf_array :=
      store8 (store8 e.m_out_buf_array e.m_out_buf_index e.m_pOut_buf 0xFF)
        e.m_out_buf_index (e.m_pOut_buf + 1) marker
    m_pOut_buf := e.m_pOut_buf + 2
    m_out_buf_left := sub32 e.m_out_buf_left 2 }

/-- Marker code `M_SOF0`. -/
def M_SOF0 : Nat := 0xC0
/-- Marker code `M_DHT`. -/
def M_DHT : Nat := 0xC4
/-- Marker code `M_SOI`. -/
def M_SOI : Nat := 0xD8
/-- Marker code `M_EOI`. -/
def M_EOI : Nat := 0xD9
/-- Marker code `M_SOS`. -/
def M_SOS : Nat := 0xDA
/-- Marker code `M_DQT`. -/
def M_DQT : Nat := 0xDB
/-- Marker code `M_APP0`. -/
def M_APP0 : Nat := 0xE0

/-- Model of `jpeg_encoder::emit_jfif_app0`. -/
def emit_jfif_app0 (SIZE COUNT : Nat) (o : out_state) : out_state :=
  let o := emit_marker SIZE COUNT o M_APP0
  let o := emit_word SIZE COUNT o (2 + 4 + 1 + 2 + 1 + 2 + 2 + 1 + 1)
  let o := emit_byte SIZE COUNT o 0x4A
  let o := emit_byte SIZE COUNT o 0x46
  let o := emit_byte SIZE COUNT o 0x49
  let o := emit_byte SIZE COUNT o 0x46
  let o := emit_byte SIZE COUNT o 0
  let o := emit_byte SIZE COUNT o 1
  let o := emit_byte SIZE COUNT o 1
  let o := emit_byte SIZE COUNT o 0
  let o := emit_word SIZE COUNT o 1
  let o := emit_word SIZE COUNT o 1
  let o := emit_byte SIZE COUNT o 0
  emit_byte SIZE COUNT o 0

/-- The body of the outer loop of `jpeg_encoder::emit_dqt`, for table `i`, starting from
output side `o`. -/
def emit_dqt_table (SIZE COUNT : Nat) (e : jpeg_encoder) (o : out_state) (i : Nat) : out_state :=
  let o := emit_marker SIZE COUNT o M_DQT
  let o := emit_word SIZE COUNT o (64 + 1 + 2)
  let o := emit_byte SIZE COUNT o i
  (List.range 64).foldl (fun o j => emit_byte SIZE COUNT o (e.m_quantization8_tables i j)) o

/-- Model of `jpeg_encoder::emit_dqt`, starting from output side `o`; the loops thread the
output side, the tables are read from the encoder. -/
def emit_dqt (SIZE COUNT : Nat) (e : jpeg_encoder) (o : out_state) : out_state :=
  (List.range (if e.m_num_components = 3 then 2 else 1)).foldl (emit_dqt_table SIZE COUNT e) o

/-- Model of `jpeg_encoder::emit_sof`, starting from output side `o`. -/
def emit_sof (SIZE COUNT : Nat) (e : jpeg_encoder) (o : out_state) : out_state :=
  let o := emit_marker SIZE COUNT o M_SOF0
  let o := emit_word SIZE COUNT o (3 * e.m_num_components + 2 + 5 + 1)
  let o := emit_byte SIZE COUNT o 8
  let o := emit_word SIZE COUNT o e.m_image_y
  let o := emit_word SIZE COUNT o e.m_image_x
  let o := emit_byte SIZE COUNT o e.m_num_components
  (List.range e.m_num_components).foldl (fun o i =>
    let o := emit_byte SIZE COUNT o (i + 1)
    let o := emit_byte SIZE COUNT o (e.m_comp_h_samp i * 2 ^ 4 + e.m_comp_v_samp i)
    emit_byte SIZE COUNT o (if i > 0 then 1 else 0)) o

/-- Model of `jpeg_encoder::emit_dht`. -/
def emit_dht (SIZE COUNT : Nat) (o : out_state) (bits val : Nat → Nat) (index : Nat)
    (ac_flag : Bool) : out_state :=
  let o := emit_marker SIZE COUNT o M_DHT
  let length := (List.range' 1 16).foldl (fun length i => length + bits i) 0
  let o := emit_word SIZE COUNT o (length + 2 + 1 + 16)
  let o := emit_byte SIZE COUNT o (index + (if ac_flag then 1 else 0) * 2 ^ 4)
  let o := (List.range' 1 16).foldl (fun o i => emit_byte SIZE COUNT o (bits i)) o
  (List.range length).foldl (fun o i => emit_byte SIZE COUNT o (val i)) o

/-- Model of `jpeg_encoder::emit_dhts`, starting from output side `o`. -/
def emit_dhts (SIZE COUNT : Nat) (e : jpeg_encoder) (o : out_state) : out_state :=
  let o := emit_dht SIZE COUNT o (e.m_huff_bits (0 + 0)) (e.m_huff_val (0 + 0)) 0 false
  let o := emit_dht SIZE COUNT o (e.m_huff_bits (2 + 0)) (e.m_huff_val (2 + 0)) 0 true
  if e.m_num_components = 3 then
    let o := emit_dht SIZE COUNT o (e.m_huff_bits (0 + 1)) (e.m_huff_val (0 + 1)) 1 false
    emit_dht SIZE COUNT o (e.m_huff_bits (2 + 1)) (e.m_huff_val (2 + 1)) 1 true
  else o

/-- Model of `jpeg_encoder::emit_sos`, starting from output side `o`. -/
def emit_sos (SIZE COUNT : Nat) (e : jpeg_encoder) (o : out_state) : out_state :=
  let o := emit_marker SIZE COUNT o M_SOS
  let o := emit_word SIZE COUNT o (2 * e.m_num_components + 2 + 1 + 3)
  let o := emit_byte SIZE COUNT o e.m_num_components
  let o := (List.range e.m_num_components).foldl (fun o i =>
    let o := emit_byte SIZE COUNT o (i + 1)
    if i = 0 then emit_byte SIZE COUNT o ((0 * 2 ^ 4) + 0)
    else emit_byte SIZE COUNT o ((1 * 2 ^ 4) + 1)) o
  let o := emit_byte SIZE COUNT o 0
  let o := emit_byte SIZE COUNT o 63
  emit_byte SIZE COUNT o 0

/-- The encoder `e` with its output side replaced by `o`. -/
def set_out (e : jpeg_encoder) (o : out_state) : jpeg_encoder := { e with toout_state := o }

/-- The first part of `jpeg_encoder::reinit`, up to the markers: the quality is stored, the
quantization tables are recomputed when the quality differs from `m_last_quality`, and the
output buffer, the bit buffer and the per-image state are reset. -/
def reinit_prepare (SIZE : Nat) (e : jpeg_encoder) (quality : Int) : jpeg_encoder :=
  let e := { e with m_params_quality := quality }
  let e :=
    if e.m_last_quality ≠ e.m_params_quality then
      let lum := compute_quant_table e.m_params_quality s_std_lum_quant
      let croma := compute_quant_table e.m_params_quality s_std_croma_quant
      { e with
        m_last_quality := e.m_params_quality
        m_quantization8_tables := fun t =>
          if t = 0 then fun j => lum.1.getD j 0
          else if t = 1 then fun j => croma.1.getD j 0
          else e.m_quantization8_tables t
        m_quantization32_tables := fun t =>
          if t = 0 then fun j => lum.2.getD j 0
          else if t = 1 then fun j => croma.2.getD j 0
          else e.m_quantization32_tables t }
    else e
  { e with
    m_out_buf_left := SIZE % 2 ^ 32
    m_pOut_buf := 0
    m_bit_buffer := 0
    m_bits_in := 32
    m_mcu_y_ofs := 0
    m_pass_num := 2
    m_last_dc_val := fun _ => 0 }

/-- The second part of `jpeg_encoder::reinit`: all markers at the beginning of the image
file, in the order of the calls. -/
def emit_header (SIZE COUNT : Nat) (e : jpeg_encoder) : out_state :=
  let o := emit_marker SIZE COUNT e.toout_state M_SOI
  let o := emit_jfif_app0 SIZE COUNT o
  let o := emit_dqt SIZE COUNT e o
  let o := emit_sof SIZE COUNT e o
  let o := emit_dhts SIZE COUNT e o
  emit_sos SIZE COUNT e o

/-- Model of `jpeg_encoder::reinit`: the returned flag and the encoder afterwards. -/
def reinit (SIZE COUNT : Nat) (e : jpeg_encoder) (quality : Int) : Bool × jpeg_encoder :=
  if !e.m_mcu_lines_0 then (false, e)
  else
    ((emit_header SIZE COUNT (reinit_prepare SIZE e quality)).m_all_stream_writes_succeeded,
      set_out (reinit_prepare SIZE e quality)
        (emit_header SIZE COUNT (reinit_prepare SIZE e quality)))

/-! ## What the sink has seen and what is still buffered -/

/-- All bytes handed to the sink so far, in order. -/
def delivered (e : out_state) : List Nat := e.m_pStream.log.flatten

/-- The bytes stored in the current output buffer and not yet handed to the sink. -/
def pending (e : out_state) : List Nat :=
  (List.range e.m_pOut_buf).map (e.m_out_buf_array e.m_out_buf_index)

/-- The output byte sequence produced so far. -/
def written (e : out_state) : List Nat := delivered e ++ pending e

/-- The output side of the encoder is in order: no write has failed, the sink accepts every
write, and the write pointer and `m_out_buf_left` account for the same bytes (modulo
`2 ^ 32`, since the counter is unsigned), the pointer being at most `B` bytes into the
buffer. -/
structure OutOk (SIZE B : Nat) (e : out_state) : Prop where
  ok : e.m_all_stream_writes_succeeded = true
  acc : ∀ n, e.m_pStream.accepts n = true
  left_lt : e.m_out_buf_left < 2 ^ 32
  ptr_left : (e.m_pOut_buf + e.m_out_buf_left) % 2 ^ 32 = SIZE % 2 ^ 32
  ptr_le : e.m_pOut_buf ≤ B

/-! ## The header that `reinit` is expected to write (vocabulary of the statements) -/

/-- A marker segment: `0xFF`, the marker code, a big-endian 16-bit length field whose value
is 2 plus the number of payload bytes, and the payload. -/
def segment (marker : Nat) (payload : List Nat) : List Nat :=
  [0xFF, marker, (payload.length + 2) / 256, (payload.length + 2) % 256] ++ payload

/-- Payload of the APP0/JFIF segment. -/
def app0_payload : List Nat := [0x4A, 0x46, 0x49, 0x46, 0, 1, 1, 0, 0, 1, 0, 1, 0, 0]

/-- Payload of the DQT segment of table `i`. -/
def dqt_payload (e : jpeg_encoder) (i : Nat) : List Nat :=
  i :: (List.range 64).map (fun j => e.m_quantization8_tables i j % 256)

/-- Payload of the SOF0 segment. -/
def sof_payload (e : jpeg_encoder) : List Nat :=
  [8, e.m_image_y / 256, e.m_image_y % 256, e.m_image_x / 256, e.m_image_x % 256,
    e.m_num_components] ++
  (List.range e.m_num_components).flatMap (fun i =>
    [i + 1, (e.m_comp_h_samp i * 16 + e.m_comp_v_samp i) % 256, if i > 0 then 1 else 0])

/-- Payload of the DHT segment of Huffman table `t`, announced as class `ac`, id `index`. -/
def dht_payload (e : jpeg_encoder) (t index ac : Nat) : List Nat :=
  (index + ac * 16) :: ((List.range' 1 16).map (fun i => e.m_huff_bits t i % 256) ++
    (List.range (((List.range' 1 16).map (e.m_huff_bits t)).sum)).map
      (fun i => e.m_huff_val t i % 256))

/-- Payload of the SOS segment. -/
def sos_payload (e : jpeg_encoder) : List Nat :=
  e.m_num_components ::
    ((List.range e.m_num_components).flatMap (fun i => [i + 1, if i = 0 then 0 else 0x11]) ++
      [0, 63, 0])

/-- The marker segments of a header, with their payloads, in order.  Follows the JPEG file
layout (not the encoder): read a sequence of marker segments, each `0xFF`, a marker code, a
big-endian 16-bit length that counts itself and the payload, and the payload; `none` when
the bytes are not such a sequence. -/
def read_segments : Nat → List Nat → Option (List (Nat × List Nat))
  | 0, _ => none
  | _ + 1, [] => some []
  | fuel + 1, f :: m :: hi :: lo :: rest =>
    if f = 0xFF ∧ 2 ≤ hi * 256 + lo ∧ hi * 256 + lo - 2 ≤ rest.length then
      (read_segments fuel (rest.drop (hi * 256 + lo - 2))).map
        (fun l => (m, rest.take (hi * 256 + lo - 2)) :: l)
    else none
  | _ + 1, _ => none

/-- The marker segments that the header of the encoder consists of, after SOI. -/
def header_segments (e : jpeg_encoder) : List (Nat × List Nat) :=
  [(0xE0, app0_payload)] ++
  (if e.m_num_components = 3 then [(0xDB, dqt_payload e 0), (0xDB, dqt_payload e 1)]
    else [(0xDB, dqt_payload e 0)]) ++
  [(0xC0, sof_payload e)] ++
  (if e.m_num_components = 3 then
      [(0xC4, dht_payload e 0 0 0), (0xC4, dht_payload e 2 0 1),
        (0xC4, dht_payload e 1 1 0), (0xC4, dht_payload e 3 1 1)]
    else [(0xC4, dht_payload e 0 0 0), (0xC4, dht_payload e 2 0 1)]) ++
  [(0xDA, sos_payload e)]

/-- Starting from an output side in order, the step to `o'` appends exactly the bytes `bs`
to the output byte sequence and leaves the output side in order. -/
def Emits (SIZE : Nat) (o o' : out_state) (bs : List Nat) : Prop :=
  ∀ B, OutOk SIZE B o → B + bs.length < 2 ^ 32 →
    OutOk SIZE (B + bs.length) o' ∧ written o' = written o ++ bs

/-- The header of a baseline JPEG file for the encoder's parameters: SOI, APP0, one DQT per
quantization table, SOF0, one DHT per Huffman table, SOS. -/
def jpeg_header (e : jpeg_encoder) : List Nat :=
  [0xFF, 0xD8] ++ segment 0xE0 app0_payload ++
  (if e.m_num_components = 3 then
      segment 0xDB (dqt_payload e 0) ++ segment 0xDB (dqt_payload e 1)
    else segment 0xDB (dqt_payload e 0)) ++
  segment 0xC0 (sof_payload e) ++
  (if e.m_num_components = 3 then
      segment 0xC4 (dht_payload e 0 0 0) ++ segment 0xC4 (dht_payload e 2 0 1) ++
      segment 0xC4 (dht_payload e 1 1 0) ++ segment 0xC4 (dht_payload e 3 1 1)
    else segment 0xC4 (dht_payload e 0 0 0) ++ segment 0xC4 (dht_payload e 2 0 1)) ++
  segment 0xDA (sos_payload e)

/-! ## Byte stuffing and bit strings (vocabulary of the statements) -/

/-- A byte sequence obeys the JPEG stuffing rule: every `0xFF` in it is immediately
followed, inside the sequence, by `0x00`. -/
def StuffedFF (E : List Nat) : Prop := ∀ j, E[j]? = some 0xFF → E[j + 1]? = some 0

/-- Insert a `0x00` after every `0xFF`. -/
def stuff : List Nat → List Nat
  | [] => []
  | c :: l => if c = 0xFF then 0xFF :: 0 :: stuff l else c :: stuff l

/-- Remove the `0x00` that follows a `0xFF`. -/
def unstuff : List Nat → List Nat
  | [] => []
  | [c] => [c]
  | c :: d :: l => if c = 0xFF ∧ d = 0 then c :: unstuff l else c :: unstuff (d :: l)

/-- The `n` low bits of `v`, most significant bit first. -/
def bitsMSB (v : Nat) : Nat → List Bool
  | 0 => []
  | n + 1 => v.testBit n :: bitsMSB v n

/-- The `n` top bits of a 32-bit word, most significant bit first. -/
def topBits (w n : Nat) : List Bool := bitsMSB (w / 2 ^ (32 - n)) n

/-- The bits of a byte sequence, each byte most significant bit first. -/
def bytesBits (l : List Nat) : List Bool := l.flatMap (fun c => bitsMSB c 8)

/-- The bytes that the loop of `put_bits` takes off the top of the bit buffer, before
stuffing, with the final `bit_buffer` and `bits_in`. -/
def put_bits_raw : Nat → Nat → Nat → List Nat × Nat × Nat
  | 0, bit_buffer, bits_in => ([], bit_buffer, bits_in)
  | fuel + 1, bit_buffer, bits_in =>
    let c := bit_buffer / 2 ^ 24
    let bit_buffer1 := shl32 bit_buffer 8
    let bits_in1 := (bits_in + 8) % 2 ^ 32
    if bits_in1 ≤ 24 then
      let r := put_bits_raw fuel bit_buffer1 bits_in1
      (c :: r.1, r.2)
    else ([c], bit_buffer1, bits_in1)

/-! ## The assembly flush routine `LABEL_BIT_PUT_SUB` -/

/-- The registers of `code_coefficients_pass_two_asm` that `LABEL_BIT_PUT_SUB` uses
(`a11` buffer room left, `a12` 32-bit bit buffer, `a13` free bits in it, `a15` output
address, `a9` scratch) and the byte-addressed output memory. -/
structure ccpt_regs where
  a9 : Nat
  a11 : Nat
  a12 : Nat
  a13 : Nat
  a15 : Nat
  mem : Nat → Nat

/-- The instruction `s16i`: a little-endian 16-bit store. -/
def s16i (mem : Nat → Nat) (addr v : Nat) : Nat → Nat :=
  fun a => if a = (addr + 1) % 2 ^ 32 then (v / 256) % 256
    else if a = addr then v % 256 else mem a

/-- Run a loop body `n` times. -/
def loopN {σ : Type} : Nat → (σ → σ) → σ → σ
  | 0, _, s => s
  | n + 1, f, s => loopN n f (f s)

/-- The zero-overhead `loop as, label` instruction: the body runs `as` times, and `2 ^ 32`
times when `as` is zero. -/
def xt_loop {σ : Type} (as : Nat) (body : σ → σ) (s : σ) : σ :=
  loopN (if as = 0 then 2 ^ 32 else as) body s

/-- The body of the loop in `LABEL_BIT_PUT_SUB`, instruction by instruction. -/
def LABEL_BIT_PUT_LOOP (r : ccpt_regs) : ccpt_regs :=
  let r := { r with a9 := r.a12 / 2 ^ 24 }             -- srli  a9, a12, 24
  let r := { r with a12 := shl32 r.a12 8 }             -- slli  a12, a12, 8
  let r := { r with mem := s16i r.mem r.a15 r.a9 }     -- s16i  a9, a15, 0
  let r := { r with a9 := (r.a9 + 257) % 2 ^ 32 }      -- addi  a9, a9, 257
  let r := { r with a9 := r.a9 / 2 ^ 8 }               -- srli  a9, a9, 8
  let r := { r with a15 := (r.a15 + r.a9) % 2 ^ 32 }   -- add.n a15, a15, a9
  { r with a11 := sub32 r.a11 r.a9 }                   -- sub   a11, a11, a9

/-- The subroutine `LABEL_BIT_PUT_SUB` of `code_coefficients_pass_two_asm`. -/
def LABEL_BIT_PUT_SUB (r : ccpt_regs) : ccpt_regs :=
  let r := { r with a9 := 32 }                          -- movi.n a9, 32
  let r := { r with a9 := sub32 r.a9 r.a13 }            -- sub    a9, a9, a13
  let r := { r with a9 := r.a9 / 2 ^ 3 }                -- srli   a9, a9, 3
  let r := { r with a13 := (r.a9 * 8 + r.a13) % 2 ^ 32 } -- addx8  a13, a9, a13
  xt_loop r.a9 LABEL_BIT_PUT_LOOP r                     -- loop   a9, LABEL_BIT_PUT_LOOP

/-- The bytes in memory from address `lo` up to, not including, address `hi`. -/
def memBytes (mem : Nat → Nat) (lo hi : Nat) : List Nat :=
  (List.range' lo (hi - lo)).map mem

/-- The `n` top bytes of a 32-bit word, taken off one after the other. -/
def top_bytes : Nat → Nat → List Nat
  | 0, _ => []
  | n + 1, w => w / 2 ^ 24 :: top_bytes n (shl32 w 8)

/-- An encoder state for examples: everything zero or empty, a sink that accepts every
write, flag `m_all_stream_writes_succeeded` set, an empty bit buffer (`m_bits_in = 32`) and
an empty output buffer of `SIZE` bytes. -/
def encoder0 (SIZE : Nat) : jpeg_encoder where
  m_pStream := { log := [], accepts := fun _ => true }
  m_all_stream_writes_succeeded := true
  m_out_buf_array := fun _ _ => 0
  m_out_buf_index := 0
  m_pOut_buf := 0
  m_out_buf_left := SIZE % 2 ^ 32
  m_bit_buffer := 0
  m_bits_in := 32
  m_pass_num := 2
  m_mcu_y_ofs := 0
  m_mcu_y := 16
  m_mcu_lines_0 := true
  m_num_components := 3
  m_comp_h_samp := fun i => if i = 0 then 2 else 1
  m_comp_v_samp := fun i => if i = 0 then 2 else 1
  m_image_x := 240
  m_image_y := 135
  m_params_quality := 60
  m_last_quality := 0
  m_quantization8_tables := fun _ _ => 0
  m_quantization32_tables := fun _ _ => 0
  m_huff_bits := fun _ _ => 0
  m_huff_val := fun _ _ => 0
  m_last_dc_val := fun _ => 0

/-- An encoder state for examples: as `encoder0 512`, with the three bits `101` pending in
the bit buffer. -/
def encoder1 : jpeg_encoder :=
  { encoder0 512 with m_bit_buffer := 0xA0000000, m_bits_in := 29 }

/-- Registers for examples: an output pointer at address 0 of zeroed memory. -/
def regs0 (a12 a13 : Nat) : ccpt_regs where
  a9 := 0
  a11 := 512
  a12 := a12
  a13 := a13
  a15 := 0
  mem := fun _ => 0

end jpge

namespace m5

/-! ## MLX90640: per-frame conversion, integer part -/

/-- The table `noise_tbl` (13 rows of 17 entries). -/
def noise_tbl : List Nat :=
  [0, 0, 0, 1, 2, 5, 8, 13, 20, 28, 39, 52, 67, 86, 107, 132, 160,
   0, 0, 0, 1, 3, 5, 9, 14, 20, 29, 39, 52, 68, 86, 108, 132, 160,
   0, 0, 1, 2, 3, 6, 9, 14, 21, 30, 41, 54, 69, 88, 109, 134, 162,
   1, 1, 1, 2, 4, 7, 11, 16, 23, 32, 42, 56, 72, 90, 112, 137, 165,
   1, 2, 2, 3, 5, 8, 12, 18, 25, 34, 45, 59, 75, 94, 116, 141, 170,
   3, 3, 4, 5, 7, 10, 15, 21, 28, 37, 49, 63, 79, 98, 121, 146, 175,
   4, 5, 6, 7, 10, 13, 18, 24, 32, 42, 54, 68, 85, 104, 127, 153, 182,
   7, 7, 8, 10, 13, 17, 22, 28, 37, 47, 59, 74, 91, 111, 134, 161, 191,
   11, 11, 12, 14, 17, 21, 27, 34, 42, 53, 66, 81, 99, 119, 143, 170, 200,
   15, 15, 17, 19, 22, 27, 33, 40, 49, 60, 74, 89, 108, 129, 153, 181, 212,
   21, 21, 22, 25, 29, 33, 40, 48, 57, 69, 83, 99, 118, 140, 165, 193, 225,
   27, 28, 29, 32, 36, 41, 48, 56, 67, 79, 93, 110, 130, 152, 178, 207, 239,
   35, 36, 38, 41, 45, 51, 58, 67, 77, 90, 105, 123, 143, 166, 193, 222, 255]

/-- The sensor pixel of output cell `i` for sub-page `subPage` (0 or 1), as computed at the
head of the loop of `MLX90640_CalculateTo`:
`ilPattern = (i >> 4) & 1; pixelNumber = (i << 1) + ((ilPattern ^ subPage) & 1)`. -/
def pixelNumber (i subPage : Nat) : Nat :=
  let ilPattern := (i >>> 4) &&& 1
  (i <<< 1) + ((ilPattern ^^^ subPage) &&& 1)

/-- One of the two search loops of the `isBroken` test:
`for (idx = ..; !isBroken && idx < 5 && pixels[idx] < 768; ++idx) isBroken = (pixelNumber ==
pixels[idx]);`.  The index grows by one per pass, so 5 passes reach the exit test. -/
def isBroken_loop (pixels : List Nat) (pixelNumber : Nat) : Nat → Nat → Bool → Bool
  | 0, _, isBroken => isBroken
  | fuel + 1, idx, isBroken =>
    if !isBroken ∧ idx < 5 ∧ pixels.getD idx 0 < 768 then
      isBroken_loop pixels pixelNumber fuel (idx + 1) (pixelNumber == pixels.getD idx 0)
    else isBroken

/-- The `isBroken` test of `MLX90640_CalculateTo`: `brokenPixels` is searched first, then
`outlierPixels`. -/
def isBroken (brokenPixels outlierPixels : List Nat) (pixelNumber : Nat) : Bool :=
  isBroken_loop outlierPixels pixelNumber 5 0 (isBroken_loop brokenPixels pixelNumber 5 0 false)

/-- A read of `prev_result->data[k]` with an `int` index: `none` when `k` is outside the
384 entries of the array. -/
def read_data (data : Nat → Nat) (k : Int) : Option Nat :=
  if 0 ≤ k ∧ k < 384 then some (data k.toNat) else none

/-- The operation `v & 31` on an `int`: in two's complement the residue of `v` modulo 32,
also for a negative `v`. -/
def and31 (v : Int) : Int := v % 32

/-- One step `++count; sum += prev_result->data[k];` of the broken-pixel branch, on the pair
`(sum, count)`; `sum` is a `uint32_t`. -/
def add_neighbour (prev : Nat → Nat) (st : Option (Nat × Nat)) (k : Int) : Option (Nat × Nat) :=
  st.bind (fun st => (read_data prev k).map (fun v => ((st.1 + v) % 2 ^ 32, st.2 + 1)))

/-- The broken-pixel branch of `MLX90640_CalculateTo` (filtered variant): the value stored
in `result->data[i]` for the sensor pixel `pixelNumber`, `none` when a read leaves the
array.  `x` and `y` are `size_t` (32 bits), so a negative `pn >> 5` becomes a large positive
number. -/
def broken_pixel_value (prev : Nat → Nat) (pixelNumber : Int) : Option Nat :=
  let pn : Int := pixelNumber - 32
  let x : Int := (and31 pn) % 4294967296
  let y : Int := (pn >>> 5) % 4294967296
  let st : Option (Nat × Nat) := some (0, 0)
  let st := if x > 0 then add_neighbour prev st ((pn - 1) >>> 1) else st
  let st := if x < 31 then add_neighbour prev st ((pn + 1) >>> 1) else st
  let st := if y > 0 then add_neighbour prev st ((pn - 32) >>> 1) else st
  let st := if y < 23 then add_neighbour prev st ((pn + 32) >>> 1) else st
  st.bind (fun st => if st.2 = 0 then none else some ((st.1 / st.2) % 2 ^ 16))

/-- What the specification asks for a broken pixel `P`: the rounded-down average of the
previous frame's values (cell `q >> 1` for pixel `q`) over the immediate raster neighbours of
`P` that exist in the 32 x 24 raster. -/
def neighbour_average (prev : Nat → Nat) (P : Nat) : Nat :=
  let col := P % 32
  let row := P / 32
  let ns := (if col > 0 then [P - 1] else []) ++ (if col < 31 then [P + 1] else []) ++
    (if row > 0 then [P - 32] else []) ++ (if row < 23 then [P + 32] else [])
  ((ns.map (fun q => prev (q / 2))).sum) / ns.length

/-- The column distance of the filter: `int x = (pixelNumber & 31) - 15; if (x < 0) x = ~x;`. -/
def noise_x (pixelNumber : Int) : Int :=
  let x : Int := and31 pixelNumber - 15
  if x < 0 then ~~~x else x

/-- The row distance of the filter: `int y = (pixelNumber >> 5) - 13; if (y < 0) y = ~y;`. -/
def noise_y (pixelNumber : Int) : Int :=
  let y : Int := (pixelNumber >>> 5) - 13
  if y < 0 then ~~~y else y

/-- The index `x + (y * 17)` into `noise_tbl` computed by the filter for a sensor pixel. -/
def noise_index (pixelNumber : Int) : Int :=
  noise_x pixelNumber + (noise_y pixelNumber * 17)

/-- The threshold `noise_filter` of `MLX90640_CalculateTo`: `filter_level` is `uint32_t`,
so the product is taken modulo `2 ^ 32` before the shift. -/
def noise_filter (filter_level : Nat) (pixelNumber : Int) : Int :=
  (((filter_level * (96 + noise_tbl.getD (noise_index pixelNumber).toNat 0)) % 2 ^ 32) >>> 8 : Nat)

/-- The threshold `noise_filter` of `command_processor::loop`, where `filter_level` is an
`int` (at most `(2048 * 15) >> 6`, so the product cannot overflow). -/
def loop_noise_filter (filter_level : Int) (pixelNumber : Int) : Int :=
  (filter_level * (96 + (noise_tbl.getD (noise_index pixelNumber).toNat 0 : Nat))) >>> 8

/-- The per-pixel filter step shared by `MLX90640_CalculateTo` and `command_processor::loop`:
`diff = temp - prev; if (abs(diff) > noise_filter) temp += (diff < 0) ? noise_filter :
-noise_filter; else temp = prev;`. -/
def filter_pixel (temp prev noise_filter : Int) : Int :=
  let diff := temp - prev
  if |diff| > noise_filter then temp + (if diff < 0 then noise_filter else -noise_filter)
  else prev

/-- The saturation of the rounded temperature in `MLX90640_CalculateTo`:
`if (temp < 0) temp = 0; else if (temp > UINT16_MAX) temp = UINT16_MAX;`. -/
def saturate_temp (temp : Int) : Int :=
  if temp < 0 then 0 else if temp > 65535 then 65535 else temp

/-- The integer tail of the non-broken branch of `MLX90640_CalculateTo`: the rounded
temperature `temp` (an `int32_t`) is saturated to `0 .. UINT16_MAX` and filtered against the
previous frame when `filter_level` is nonzero; the result is the `int32_t` that is then
assigned to the `uint16_t` `result->data[i]`. -/
def CalculateTo_temp (temp : Int) (prev : Nat) (filter_level : Nat) (pixelNumber : Int) : Int :=
  let temp := saturate_temp temp
  if filter_level ≠ 0 then filter_pixel temp prev (noise_filter filter_level pixelNumber)
  else temp

/-- Narrowing of an `int` to `uint16_t`. -/
def to_uint16 (v : Int) : Nat := (v % 65536).toNat

/-! ## MLX90640: deviating pixels -/

/-- Model of `MLX90640_params_t::CheckAdjacentPixels` (`pix1`, `pix2` are `uint16_t`). -/
def CheckAdjacentPixels (pix1 pix2 : Nat) : Int :=
  let pixPosDif : Int := (pix1 : Int) - (pix2 : Int)
  if pixPosDif > -34 ∧ pixPosDif < -30 then -6
  else if pixPosDif > -2 ∧ pixPosDif < 2 then -6
  else if pixPosDif > 30 ∧ pixPosDif < 34 then -6
  else 0

/-- The local variables and the two lists of `setDeviatingPixels` during the scan. -/
structure deviating where
  brokenPixels : List Nat
  outlierPixels : List Nat
  pixCnt : Nat
  brokenPixCnt : Nat
  outlierPixCnt : Nat

/-- The `while` loop of `setDeviatingPixels`.  `pixCnt` grows by one per pass, so 768
passes reach the exit test. -/
def setDeviatingPixels_loop (eeData : Nat → Nat) : Nat → deviating → deviating
  | 0, d => d
  | fuel + 1, d =>
    if d.pixCnt < 768 ∧ d.brokenPixCnt < 5 ∧ d.outlierPixCnt < 5 then
      let d :=
        if eeData (d.pixCnt + 64) = 0 then
          { d with brokenPixels := d.brokenPixels.set d.brokenPixCnt d.pixCnt
                   brokenPixCnt := d.brokenPixCnt + 1 }
        else if eeData (d.pixCnt + 64) &&& 0x0001 ≠ 0 then
          { d with outlierPixels := d.outlierPixels.set d.outlierPixCnt d.pixCnt
                   outlierPixCnt := d.outlierPixCnt + 1 }
        else d
      setDeviatingPixels_loop eeData fuel { d with pixCnt := d.pixCnt + 1 }
    else d

/-- Model of the first part of `MLX90640_params_t::setDeviatingPixels`: both lists are
filled with `0xFFFF`, then the EEPROM pixel words `eeData[64 ..]` are scanned. -/
def setDeviatingPixels (eeData : Nat → Nat) : deviating :=
  setDeviatingPixels_loop eeData 768
    { brokenPixels := List.replicate 5 0xFFFF
      outlierPixels := List.replicate 5 0xFFFF
      pixCnt := 0
      brokenPixCnt := 0
      outlierPixCnt := 0 }

end m5

/-! # Theorems -/

namespace jpge

/-! ## Output layer: every stored byte reaches the output sequence -/

theorem sub32_lt (a b : Nat) : sub32 a b < 2 ^ 32 := by
  unfold sub32; omega

theorem pending_store (arr : Nat → Nat → Nat) (idx p v : Nat) :
    (List.range (p + 1)).map (store8 arr idx p v idx) =
      (List.range p).map (arr idx) ++ [v % 256] := by
  rw [List.range_succ, List.map_append]
  congr 1
  · apply List.map_congr_left
    intro a ha
    have : a ≠ p := by
      have := List.mem_range.mp ha
      omega
    simp [store8, this]
  · simp [store8]

theorem flush_spec (SIZE COUNT B : Nat) (e : out_state) (h : OutOk SIZE B e)
    (hB : B < 2 ^ 32) :
    OutOk SIZE 0 (flush_output_buffer SIZE COUNT e) ∧
      written (flush_output_buffer SIZE COUNT e) = written e := by
  obtain ⟨hok, hacc, hl, hp, hle⟩ := h
  have hlen : sub32 SIZE e.m_out_buf_left = e.m_pOut_buf := by
    unfold sub32; omega
  unfold flush_output_buffer
  simp only [hlen]
  by_cases h0 : e.m_pOut_buf = 0
  · rw [if_pos h0]
    exact ⟨⟨hok, hacc, hl, hp, by omega⟩, rfl⟩
  · rw [if_neg h0]
    simp only [hok, if_true]
    refine ⟨⟨?_, ?_, ?_, ?_, ?_⟩, ?_⟩
    · simp [output_stream.put_buf, hacc]
    · intro n; simp [output_stream.put_buf, hacc]
    · simp only; omega
    · simp only; omega
    · simp
    · simp [written, delivered, pending, output_stream.put_buf]

theorem emit_byte_spec (SIZE COUNT B : Nat) (e : out_state) (i : Nat) (h : OutOk SIZE B e)
    (hB : B + 1 < 2 ^ 32) :
    OutOk SIZE (B + 1) (emit_byte SIZE COUNT e i) ∧
      written (emit_byte SIZE COUNT e i) = written e ++ [i % 256] := by
  obtain ⟨hok, hacc, hl, hp, hle⟩ := h
  have h1 : OutOk SIZE (B + 1) { e with
      m_out_buf_array := store8 e.m_out_buf_array e.m_out_buf_index e.m_pOut_buf i
      m_pOut_buf := e.m_pOut_buf + 1
      m_out_buf_left := sub32 e.m_out_buf_left 1 } := by
    refine ⟨hok, hacc, sub32_lt _ _, ?_, ?_⟩
    · simp only [sub32]; omega
    · simp only; omega
  have hw : written { e with
      m_out_buf_array := store8 e.m_out_buf_array e.m_out_buf_index e.m_pOut_buf i
      m_pOut_buf := e.m_pOut_buf + 1
      m_out_buf_left := sub32 e.m_out_buf_left 1 } = written e ++ [i % 256] := by
    simp only [written, delivered, pending, pending_store, List.append_assoc]
  unfold emit_byte
  simp only
  split
  · have hf := flush_spec SIZE COUNT (B + 1) _ h1 (by omega)
    refine ⟨⟨hf.1.ok, hf.1.acc, hf.1.left_lt, hf.1.ptr_left, ?_⟩, ?_⟩
    · have := hf.1.ptr_le; omega
    · rw [hf.2, hw]
  · exact ⟨h1, hw⟩

end jpge

namespace jpge

/-! ## Byte stuffing -/

theorem stuff_StuffedFF (l : List Nat) : StuffedFF (stuff l) := by
  induction l with
  | nil => intro j h; simp [stuff] at h
  | cons c l ih =>
    intro j h
    by_cases hc : c = 0xFF
    · simp only [stuff, hc, if_true] at h ⊢
      match j, h with
      | 0, _ => simp
      | 1, h => simp at h
      | j + 2, h =>
        simp only [List.getElem?_cons_succ] at h ⊢
        exact ih j h
    · simp only [stuff, hc, if_false] at h ⊢
      match j, h with
      | 0, h => simp at h; exact absurd h hc
      | j + 1, h =>
        simp only [List.getElem?_cons_succ] at h ⊢
        exact ih j h

theorem stuff_cons (c : Nat) (l : List Nat) : stuff (c :: l) = stuff [c] ++ stuff l := by
  by_cases hc : c = 0xFF <;> simp [stuff, hc]

theorem unstuff_stuff (l : List Nat) : unstuff (stuff l) = l := by
  induction l with
  | nil => rfl
  | cons c l ih =>
    by_cases hc : c = 0xFF
    · simp only [stuff, hc, if_true, unstuff, and_self, ih]
    · simp only [stuff, hc, if_false]
      cases hl : stuff l with
      | nil =>
        rw [hl] at ih
        simp [unstuff, ← ih]
      | cons d t =>
        rw [hl] at ih
        simp only [unstuff, hc, false_and, if_false, ih]

/-! ## `put_bits`: relation between the encoder and the bytes taken off the bit buffer -/

theorem put_bits_loop_spec (SIZE COUNT : Nat) (fuel : Nat) :
    ∀ (e : out_state) (bit_buffer bits_in B : Nat), OutOk SIZE B e →
      B + 2 * fuel < 2 ^ 32 → bit_buffer < 2 ^ 32 →
      OutOk SIZE (B + 2 * fuel) (put_bits_loop SIZE COUNT fuel e bit_buffer bits_in).1 ∧
      written (put_bits_loop SIZE COUNT fuel e bit_buffer bits_in).1 =
        written e ++ stuff (put_bits_raw fuel bit_buffer bits_in).1 ∧
      (put_bits_loop SIZE COUNT fuel e bit_buffer bits_in).2 =
        (put_bits_raw fuel bit_buffer bits_in).2 := by
  induction fuel with
  | zero =>
    intro e bb bi B h _ _
    simp only [put_bits_loop, put_bits_raw, stuff, List.append_nil, and_self, and_true]
    exact h
  | succ fuel ih =>
    intro e bb bi B h hB hbb
    have hc : bb / 2 ^ 24 < 256 := by omega
    have hs : shl32 bb 8 < 2 ^ 32 := by unfold shl32; omega
    obtain ⟨h1, w1⟩ := emit_byte_spec SIZE COUNT B e (bb / 2 ^ 24) h (by omega)
    rw [Nat.mod_eq_of_lt hc] at w1
    -- the encoder after the byte and its possible stuffed zero
    have h2 : OutOk SIZE (B + 2)
          (if bb / 2 ^ 24 = 0xFF then emit_byte SIZE COUNT (emit_byte SIZE COUNT e (bb / 2 ^ 24)) 0
            else emit_byte SIZE COUNT e (bb / 2 ^ 24)) ∧
        written (if bb / 2 ^ 24 = 0xFF
            then emit_byte SIZE COUNT (emit_byte SIZE COUNT e (bb / 2 ^ 24)) 0
            else emit_byte SIZE COUNT e (bb / 2 ^ 24)) =
          written e ++ stuff [bb / 2 ^ 24] := by
      by_cases hff : bb / 2 ^ 24 = 0xFF
      · obtain ⟨h2, w2⟩ := emit_byte_spec SIZE COUNT (B + 1) _ 0 h1 (by omega)
        simp only [hff, if_true, stuff] at h2 w2 w1 ⊢
        refine ⟨h2, ?_⟩
        rw [w2, w1]; simp
      · simp only [hff, if_false, stuff]
        exact ⟨⟨h1.ok, h1.acc, h1.left_lt, h1.ptr_left, by have := h1.ptr_le; omega⟩, w1⟩
    obtain ⟨h2, w2⟩ := h2
    by_cases hexit : (bi + 8) % 2 ^ 32 ≤ 24
    · obtain ⟨h3, w3, r3⟩ := ih _ (shl32 bb 8) ((bi + 8) % 2 ^ 32) (B + 2) h2 (by omega) hs
      simp only [put_bits_loop, put_bits_raw, hexit, if_true]
      refine ⟨?_, ?_, r3⟩
      · exact ⟨h3.ok, h3.acc, h3.left_lt, h3.ptr_left, by have := h3.ptr_le; omega⟩
      · rw [w3, w2, List.append_assoc]
        exact congrArg _ (stuff_cons (bb / 2 ^ 24) _).symm
    · simp only [put_bits_loop, put_bits_raw, hexit, if_false, and_true]
      exact ⟨⟨h2.ok, h2.acc, h2.left_lt, h2.ptr_left, by have := h2.ptr_le; omega⟩, w2⟩

end jpge

namespace jpge

theorem encoder0_OutOk (SIZE : Nat) : OutOk SIZE 0 (encoder0 SIZE) :=
  ⟨rfl, fun _ => rfl, Nat.mod_lt _ (by norm_num),
    by show (0 + SIZE % 2 ^ 32) % 2 ^ 32 = SIZE % 2 ^ 32; omega, Nat.le_refl _⟩

theorem put_bits_spec (SIZE COUNT B : Nat) (e : jpeg_encoder) (bits len : Nat)
    (h : OutOk SIZE B e) (hB : B + 8 < 2 ^ 32) :
    ∃ raw : List Nat,
      raw = (if sub32 e.m_bits_in len ≤ 24 then
          (put_bits_raw 4 ((e.m_bit_buffer + shl32 bits (sub32 e.m_bits_in len)) % 2 ^ 32)
            (sub32 e.m_bits_in len)).1 else []) ∧
      OutOk SIZE (B + 8) (put_bits SIZE COUNT e bits len) ∧
      written (put_bits SIZE COUNT e bits len) = written e ++ stuff raw ∧
      ((put_bits SIZE COUNT e bits len).m_bit_buffer, (put_bits SIZE COUNT e bits len).m_bits_in) =
        (if sub32 e.m_bits_in len ≤ 24 then
          (put_bits_raw 4 ((e.m_bit_buffer + shl32 bits (sub32 e.m_bits_in len)) % 2 ^ 32)
            (sub32 e.m_bits_in len)).2
          else ((e.m_bit_buffer + shl32 bits (sub32 e.m_bits_in len)) % 2 ^ 32,
            sub32 e.m_bits_in len)) := by
  refine ⟨_, rfl, ?_⟩
  unfold put_bits
  by_cases hb : sub32 e.m_bits_in len ≤ 24
  · simp only [hb, if_true]
    obtain ⟨h1, w1, r1⟩ := put_bits_loop_spec SIZE COUNT 4 e.toout_state
      ((e.m_bit_buffer + shl32 bits (sub32 e.m_bits_in len)) % 2 ^ 32)
      (sub32 e.m_bits_in len) B h (by omega) (Nat.mod_lt _ (by norm_num))
    refine ⟨⟨h1.ok, h1.acc, h1.left_lt, h1.ptr_left, h1.ptr_le⟩, ?_, ?_⟩
    · exact w1
    · rw [← r1]
  · simp only [hb, if_false, stuff, List.append_nil]
    refine ⟨⟨h.ok, h.acc, h.left_lt, h.ptr_left, ?_⟩, ?_⟩
    · have := h.ptr_le
      show e.m_pOut_buf ≤ B + 8
      omega
    · simp

end jpge

namespace jpge

/-! ## The assembly flush routine -/

theorem memBytes_split (mem : Nat → Nat) (lo mid hi : Nat) (h1 : lo ≤ mid) (h2 : mid ≤ hi) :
    memBytes mem lo hi = memBytes mem lo mid ++ memBytes mem mid hi := by
  unfold memBytes
  rw [← List.map_append]
  congr 1
  have := List.range'_append lo (mid - lo) (hi - mid) 1
  rw [Nat.one_mul, Nat.add_sub_cancel' h1] at this
  rw [this]
  congr 1
  omega

theorem memBytes_congr (m1 m2 : Nat → Nat) (lo hi : Nat)
    (h : ∀ a, a < hi → m1 a = m2 a) : memBytes m1 lo hi = memBytes m2 lo hi := by
  unfold memBytes
  apply List.map_congr_left
  intro a ha
  have := List.mem_range'_1.mp ha
  exact h a (by omega)

theorem bit_put_body (r : ccpt_regs) (h12 : r.a12 < 2 ^ 32) (h15 : r.a15 + 2 < 2 ^ 32) :
    (LABEL_BIT_PUT_LOOP r).a15 = r.a15 + (stuff [r.a12 / 2 ^ 24]).length ∧
    memBytes (LABEL_BIT_PUT_LOOP r).mem r.a15 (LABEL_BIT_PUT_LOOP r).a15 =
      stuff [r.a12 / 2 ^ 24] ∧
    (∀ a, a < r.a15 → (LABEL_BIT_PUT_LOOP r).mem a = r.mem a) ∧
    (LABEL_BIT_PUT_LOOP r).a12 = shl32 r.a12 8 ∧
    (LABEL_BIT_PUT_LOOP r).a13 = r.a13 := by
  have hc : r.a12 / 2 ^ 24 < 256 := by omega
  have hmem : (LABEL_BIT_PUT_LOOP r).mem = s16i r.mem r.a15 (r.a12 / 2 ^ 24) := rfl
  have hlo : ∀ a, a < r.a15 → (LABEL_BIT_PUT_LOOP r).mem a = r.mem a := by
    intro a ha
    rw [hmem]
    unfold s16i
    rw [if_neg (by omega), if_neg (by omega)]
  by_cases hff : r.a12 / 2 ^ 24 = 0xFF
  · have h15' : (LABEL_BIT_PUT_LOOP r).a15 = r.a15 + 2 := by
      show (r.a15 + (r.a12 / 2 ^ 24 + 257) % 2 ^ 32 / 2 ^ 8) % 2 ^ 32 = r.a15 + 2
      rw [hff]; omega
    refine ⟨?_, ?_, hlo, rfl, rfl⟩
    · rw [h15', hff]; rfl
    · rw [h15', hmem, hff]
      unfold memBytes
      have : r.a15 + 2 - r.a15 = 2 := by omega
      rw [this]
      simp only [List.range', List.map, s16i, stuff, if_true]
      have e1 : (r.a15 + 1) % 2 ^ 32 = r.a15 + 1 := by omega
      rw [e1]
      simp
  · have h15' : (LABEL_BIT_PUT_LOOP r).a15 = r.a15 + 1 := by
      show (r.a15 + (r.a12 / 2 ^ 24 + 257) % 2 ^ 32 / 2 ^ 8) % 2 ^ 32 = r.a15 + 1
      omega
    refine ⟨?_, ?_, hlo, rfl, rfl⟩
    · rw [h15']; simp only [stuff, hff, if_false, List.length_singleton]
    · rw [h15', hmem]
      unfold memBytes
      have : r.a15 + 1 - r.a15 = 1 := by omega
      rw [this]
      simp only [List.range', List.map, s16i, stuff, hff, if_false]
      have e1 : (r.a15 + 1) % 2 ^ 32 = r.a15 + 1 := by omega
      rw [e1]
      simp
      omega

theorem stuff_length_le (l : List Nat) : (stuff l).length ≤ 2 * l.length := by
  induction l with
  | nil => simp [stuff]
  | cons c l ih =>
    by_cases hc : c = 0xFF <;> simp [stuff, hc] <;> omega

theorem top_bytes_length (n w : Nat) : (top_bytes n w).length = n := by
  induction n generalizing w with
  | zero => rfl
  | succ n ih => simp [top_bytes, ih]

theorem bit_put_loop_spec (n : Nat) :
    ∀ r : ccpt_regs, r.a12 < 2 ^ 32 → r.a15 + 2 * n < 2 ^ 32 →
      (loopN n LABEL_BIT_PUT_LOOP r).a15 = r.a15 + (stuff (top_bytes n r.a12)).length ∧
      memBytes (loopN n LABEL_BIT_PUT_LOOP r).mem r.a15 (loopN n LABEL_BIT_PUT_LOOP r).a15 =
        stuff (top_bytes n r.a12) ∧
      (∀ a, a < r.a15 → (loopN n LABEL_BIT_PUT_LOOP r).mem a = r.mem a) ∧
      (loopN n LABEL_BIT_PUT_LOOP r).a13 = r.a13 := by
  induction n with
  | zero =>
    intro r _ _
    simp [loopN, top_bytes, stuff, memBytes]
  | succ n ih =>
    intro r h12 h15
    obtain ⟨b15, bmem, blo, b12, b13⟩ := bit_put_body r h12 (by omega)
    have hlen1 : (stuff [r.a12 / 2 ^ 24]).length ≤ 2 := by
      have := stuff_length_le [r.a12 / 2 ^ 24]; simpa using this
    have hs : shl32 r.a12 8 < 2 ^ 32 := by unfold shl32; omega
    obtain ⟨i15, imem, ilo, i13⟩ := ih (LABEL_BIT_PUT_LOOP r) (by rw [b12]; exact hs) (by omega)
    simp only [loopN, top_bytes]
    rw [stuff_cons, List.length_append]
    refine ⟨?_, ?_, ?_, ?_⟩
    · rw [i15, b15, b12]; omega
    · rw [memBytes_split _ r.a15 (LABEL_BIT_PUT_LOOP r).a15 _ (by omega) (by omega), imem, b12]
      congr 1
      rw [memBytes_congr _ (LABEL_BIT_PUT_LOOP r).mem _ _ (fun a ha => ilo a ha), bmem]
    · intro a ha
      rw [ilo a (by omega), blo a ha]
    · rw [i13, b13]

end jpge

namespace jpge

theorem bit_put_sub_spec (r : ccpt_regs) (h13 : r.a13 ≤ 24) (h12 : r.a12 < 2 ^ 32)
    (h15 : r.a15 + 8 < 2 ^ 32) :
    (LABEL_BIT_PUT_SUB r).a15 =
      r.a15 + (stuff (top_bytes ((32 - r.a13) / 8) r.a12)).length ∧
    memBytes (LABEL_BIT_PUT_SUB r).mem r.a15 (LABEL_BIT_PUT_SUB r).a15 =
      stuff (top_bytes ((32 - r.a13) / 8) r.a12) ∧
    (LABEL_BIT_PUT_SUB r).a13 = r.a13 + 8 * ((32 - r.a13) / 8) := by
  have hn : sub32 32 r.a13 / 2 ^ 3 = (32 - r.a13) / 8 := by unfold sub32; omega
  have hn0 : (32 - r.a13) / 8 ≠ 0 := by omega
  have hn4 : (32 - r.a13) / 8 ≤ 4 := by omega
  have key := bit_put_loop_spec ((32 - r.a13) / 8)
    { r with a9 := (32 - r.a13) / 8, a13 := ((32 - r.a13) / 8 * 8 + r.a13) % 2 ^ 32 }
    h12 (by show r.a15 + 2 * ((32 - r.a13) / 8) < 2 ^ 32; omega)
  have hsub : LABEL_BIT_PUT_SUB r = loopN ((32 - r.a13) / 8) LABEL_BIT_PUT_LOOP
      { r with a9 := (32 - r.a13) / 8, a13 := ((32 - r.a13) / 8 * 8 + r.a13) % 2 ^ 32 } := by
    unfold LABEL_BIT_PUT_SUB xt_loop
    simp only [hn, if_neg hn0]
  rw [hsub]
  obtain ⟨k15, kmem, -, k13⟩ := key
  refine ⟨k15, kmem, ?_⟩
  rw [k13]
  show ((32 - r.a13) / 8 * 8 + r.a13) % 2 ^ 32 = r.a13 + 8 * ((32 - r.a13) / 8)
  omega

end jpge

namespace jpge

/-! ## C1: byte stuffing in `put_bits` and in `LABEL_BIT_PUT_SUB` -/

/-- C1. For every call of `put_bits` (any bit buffer contents, any code, any length and any
`m_bits_in`, in particular `len ≤ 24` and `25 ≤ m_bits_in ≤ 32`) on an encoder whose output
side is in order, the bytes that the call appends to the output byte sequence are a stuffed
sequence: every `0xFF` among them is immediately followed by its own `0x00`, also when
several `0xFF` bytes are emitted by the same call.  The assembly routine
`LABEL_BIT_PUT_SUB`, entered with at least one whole byte pending (`a13 ≤ 24`, as at every
call site), stores between the old and the new output address a byte sequence that obeys the
same rule. -/
theorem put_bits_stuffs_every_FF (SIZE COUNT B : Nat) (e : jpeg_encoder) (bits len : Nat)
    (hout : OutOk SIZE B e) (hB : B + 8 < 2 ^ 32)
    (r : ccpt_regs) (h13 : r.a13 ≤ 24) (h12 : r.a12 < 2 ^ 32) (h15 : r.a15 + 8 < 2 ^ 32) :
    (∃ raw, written (put_bits SIZE COUNT e bits len) = written e ++ stuff raw ∧
        StuffedFF (stuff raw)) ∧
    (∃ raw, r.a15 ≤ (LABEL_BIT_PUT_SUB r).a15 ∧
        memBytes (LABEL_BIT_PUT_SUB r).mem r.a15 (LABEL_BIT_PUT_SUB r).a15 = stuff raw ∧
        StuffedFF (stuff raw)) := by
  constructor
  · obtain ⟨raw, -, -, hw, -⟩ := put_bits_spec SIZE COUNT B e bits len hout hB
    exact ⟨raw, hw, stuff_StuffedFF raw⟩
  · obtain ⟨k15, kmem, -⟩ := bit_put_sub_spec r h13 h12 h15
    exact ⟨_, by omega, kmem, stuff_StuffedFF _⟩

/-- Witness for C1: three `0xFF` bytes leave `put_bits` in one call, and two leave the
assembly routine; each is followed by its `0x00`. -/
theorem put_bits_stuffs_every_FF_witness :
    written (put_bits 512 4 (encoder0 512) 0xFFFFFF 24) = [0xFF, 0, 0xFF, 0, 0xFF, 0] ∧
    memBytes (LABEL_BIT_PUT_SUB (regs0 0xFFFF1234 8)).mem 0
        (LABEL_BIT_PUT_SUB (regs0 0xFFFF1234 8)).a15 = [0xFF, 0, 0xFF, 0, 0x12] ∧
    ((∃ raw, written (put_bits 512 4 (encoder0 512) 0xFFFFFF 24) =
          written (encoder0 512) ++ stuff raw ∧ StuffedFF (stuff raw)) ∧
      (∃ raw, (regs0 0xFFFF1234 8).a15 ≤ (LABEL_BIT_PUT_SUB (regs0 0xFFFF1234 8)).a15 ∧
          memBytes (LABEL_BIT_PUT_SUB (regs0 0xFFFF1234 8)).mem (regs0 0xFFFF1234 8).a15
            (LABEL_BIT_PUT_SUB (regs0 0xFFFF1234 8)).a15 = stuff raw ∧
          StuffedFF (stuff raw))) :=
  ⟨by decide, by decide,
    put_bits_stuffs_every_FF 512 4 0 (encoder0 512) 0xFFFFFF 24 (encoder0_OutOk 512)
      (by decide) (regs0 0xFFFF1234 8) (by decide) (by decide) (by decide)⟩

end jpge

namespace jpge

/-! ## Bit strings -/

theorem bitsMSB_congr (a b n : Nat) (h : ∀ k, k < n → a.testBit k = b.testBit k) :
    bitsMSB a n = bitsMSB b n := by
  induction n with
  | zero => rfl
  | succ n ih =>
    simp only [bitsMSB]
    rw [h n (by omega), ih (fun k hk => h k (by omega))]

theorem bitsMSB_append (v n m : Nat) :
    bitsMSB v (n + m) = bitsMSB (v / 2 ^ m) n ++ bitsMSB v m := by
  induction n with
  | zero => simp [bitsMSB]
  | succ n ih =>
    have : n + 1 + m = (n + m) + 1 := by omega
    rw [this]
    simp only [bitsMSB, List.cons_append, ih]
    congr 1
    rw [← Nat.shiftRight_eq_div_pow, Nat.testBit_shiftRight, Nat.add_comm]

theorem testBit_div_pow (v i k : Nat) : (v / 2 ^ i).testBit k = v.testBit (i + k) := by
  rw [← Nat.shiftRight_eq_div_pow, Nat.testBit_shiftRight]

/-- Taking one byte off the top of the bit buffer splits its pending bits. -/
theorem topBits_step (bb bi : Nat) (hbi : bi ≤ 24) :
    topBits bb (32 - bi) = bitsMSB (bb / 2 ^ 24) 8 ++ topBits (shl32 bb 8) (32 - (bi + 8)) := by
  unfold topBits
  have e1 : 32 - (32 - bi) = bi := by omega
  have e2 : 32 - (32 - (bi + 8)) = bi + 8 := by omega
  have e3 : 32 - bi = 8 + (24 - bi) := by omega
  have e4 : 32 - (bi + 8) = 24 - bi := by omega
  rw [e1, e2, e3, e4, bitsMSB_append]
  congr 1
  · rw [Nat.div_div_eq_div_mul, ← pow_add]
    have : bi + (24 - bi) = 24 := by omega
    rw [this]
  · apply bitsMSB_congr
    intro k hk
    rw [testBit_div_pow, testBit_div_pow]
    unfold shl32
    rw [Nat.testBit_mod_two_pow, Nat.mul_comm, Nat.testBit_mul_pow_two]
    have h1 : bi + 8 + k < 32 := by omega
    have h2 : bi + 8 + k ≥ 8 := by omega
    have h3 : bi + 8 + k - 8 = bi + k := by omega
    simp [h1, h2, h3]

theorem bytesBits_cons (c : Nat) (l : List Nat) :
    bytesBits (c :: l) = bitsMSB c 8 ++ bytesBits l := by
  simp [bytesBits]

/-- The loop of `put_bits` moves whole bytes from the pending bits to the output and
leaves fewer than 8 bits pending, provided the fuel covers the passes needed. -/
theorem put_bits_raw_spec (fuel : Nat) :
    ∀ bb bi : Nat, bi ≤ 24 → 24 < bi + 8 * fuel →
      bytesBits (put_bits_raw fuel bb bi).1 ++
          topBits (put_bits_raw fuel bb bi).2.1 (32 - (put_bits_raw fuel bb bi).2.2) =
        topBits bb (32 - bi) ∧
      25 ≤ (put_bits_raw fuel bb bi).2.2 ∧ (put_bits_raw fuel bb bi).2.2 ≤ 32 := by
  induction fuel with
  | zero => intro bb bi h1 h2; omega
  | succ fuel ih =>
    intro bb bi h1 h2
    have hm : (bi + 8) % 2 ^ 32 = bi + 8 := by omega
    by_cases hexit : bi + 8 ≤ 24
    · obtain ⟨i1, i2, i3⟩ := ih (shl32 bb 8) (bi + 8) hexit (by omega)
      simp only [put_bits_raw, hm, hexit, if_true]
      refine ⟨?_, i2, i3⟩
      rw [bytesBits_cons, List.append_assoc, i1, ← topBits_step bb bi h1]
    · simp only [put_bits_raw, hm, hexit, if_false]
      refine ⟨?_, by omega, by omega⟩
      rw [bytesBits_cons, List.append_assoc, topBits_step bb bi h1]
      simp [bytesBits]

/-- Adding a code below the pending bits appends its bits to them. -/
theorem topBits_add_code (old m bits len : Nat) (hm : m ≤ 32) (hlen : len ≤ m)
    (hold : old < 2 ^ 32) (hlow : old % 2 ^ m = 0) (hbits : bits < 2 ^ len) :
    topBits ((old + shl32 bits (m - len)) % 2 ^ 32) (32 - (m - len)) =
      topBits old (32 - m) ++ bitsMSB bits len := by
  obtain ⟨P, hP⟩ : ∃ P, old = 2 ^ m * P := ⟨old / 2 ^ m, by
    have := Nat.div_add_mod old (2 ^ m); omega⟩
  have hpm : (2:Nat) ^ m = 2 ^ (m - len) * 2 ^ len := by
    rw [← pow_add]; congr 1; omega
  have hb2 : bits * 2 ^ (m - len) < 2 ^ m := by
    rw [hpm, Nat.mul_comm]
    exact Nat.mul_lt_mul_of_pos_left hbits (Nat.pow_pos (by norm_num))
  have hm32 : (2:Nat) ^ m ≤ 2 ^ 32 := Nat.pow_le_pow_right (by norm_num) hm
  have hsh : shl32 bits (m - len) = bits * 2 ^ (m - len) := by
    unfold shl32; exact Nat.mod_eq_of_lt (by omega)
  have hsum : old + bits * 2 ^ (m - len) = 2 ^ (m - len) * (2 ^ len * P + bits) := by
    rw [hP, hpm]; ring
  have hlt : old + bits * 2 ^ (m - len) < 2 ^ 32 := by
    have h1 : P < 2 ^ 32 / 2 ^ m := by
      apply (Nat.lt_div_iff_mul_lt (Nat.pow_dvd_pow 2 hm) _).mpr
      rw [Nat.mul_comm, ← hP] at *; exact hold
    have h2 : 2 ^ m * (P + 1) ≤ 2 ^ 32 := by
      have : P + 1 ≤ 2 ^ 32 / 2 ^ m := h1
      calc 2 ^ m * (P + 1) ≤ 2 ^ m * (2 ^ 32 / 2 ^ m) := Nat.mul_le_mul_left _ this
        _ ≤ 2 ^ 32 := Nat.mul_div_le _ _
    rw [hP]
    have : 2 ^ m * (P + 1) = 2 ^ m * P + 2 ^ m := by ring
    omega
  rw [hsh, Nat.mod_eq_of_lt hlt]
  unfold topBits
  have e1 : 32 - (32 - (m - len)) = m - len := by omega
  have e2 : 32 - (32 - m) = m := by omega
  have e3 : 32 - (m - len) = (32 - m) + len := by omega
  rw [e1, e2, e3, bitsMSB_append, hsum,
    Nat.mul_div_cancel_left _ (Nat.pow_pos (by norm_num : 0 < 2))]
  congr 1
  · congr 1
    rw [Nat.add_div_of_dvd_right (Dvd.intro _ rfl),
      Nat.mul_div_cancel_left _ (Nat.pow_pos (by norm_num : 0 < 2)),
      Nat.div_eq_of_lt hbits, Nat.add_zero, hP,
      Nat.mul_div_cancel_left _ (Nat.pow_pos (by norm_num : 0 < 2))]
  · apply bitsMSB_congr
    intro k hk
    rw [Nat.testBit_mul_pow_two_add _ hbits, if_pos hk]

end jpge

namespace jpge

/-! ## C2: `put_bits` preserves the bit stream -/

/-- C2. In a state with `25 ≤ m_bits_in ≤ 32` whose low `m_bits_in` bits of `m_bit_buffer`
are zero, and for a code `bits < 2 ^ len` with `1 ≤ len ≤ 24`: the bytes `E` that
`put_bits(bits, len)` appends to the output, with the stuffed `0x00` bytes removed, followed
by the `32 - m_bits_in'` pending top bits of the new buffer, are the `32 - m_bits_in`
previously pending bits followed by the `len` bits of the code, most significant bit first;
and afterwards again `25 ≤ m_bits_in' ≤ 32`. -/
theorem put_bits_preserves_bit_stream (SIZE COUNT B : Nat) (e : jpeg_encoder) (bits len : Nat)
    (hout : OutOk SIZE B e) (hB : B + 8 < 2 ^ 32)
    (hin : 25 ≤ e.m_bits_in ∧ e.m_bits_in ≤ 32)
    (hbuf : e.m_bit_buffer < 2 ^ 32) (hlow : e.m_bit_buffer % 2 ^ e.m_bits_in = 0)
    (hlen : 1 ≤ len ∧ len ≤ 24) (hbits : bits < 2 ^ len) :
    ∃ E, written (put_bits SIZE COUNT e bits len) = written e ++ E ∧
      bytesBits (unstuff E) ++
          topBits (put_bits SIZE COUNT e bits len).m_bit_buffer
            (32 - (put_bits SIZE COUNT e bits len).m_bits_in) =
        topBits e.m_bit_buffer (32 - e.m_bits_in) ++ bitsMSB bits len ∧
      25 ≤ (put_bits SIZE COUNT e bits len).m_bits_in ∧
      (put_bits SIZE COUNT e bits len).m_bits_in ≤ 32 := by
  obtain ⟨raw, hraw, -, hw, hregs⟩ := put_bits_spec SIZE COUNT B e bits len hout hB
  have hsub : sub32 e.m_bits_in len = e.m_bits_in - len := by unfold sub32; omega
  have hcode := topBits_add_code e.m_bit_buffer e.m_bits_in bits len hin.2 (by omega) hbuf hlow
    hbits
  rw [hsub] at hraw hregs
  refine ⟨stuff raw, hw, ?_⟩
  rw [unstuff_stuff]
  by_cases hb : e.m_bits_in - len ≤ 24
  · rw [if_pos hb] at hraw hregs
    obtain ⟨k1, k2, k3⟩ := put_bits_raw_spec 4
      ((e.m_bit_buffer + shl32 bits (e.m_bits_in - len)) % 2 ^ 32) (e.m_bits_in - len) hb
      (by omega)
    have hbb := congrArg Prod.fst hregs
    have hbi := congrArg Prod.snd hregs
    simp only at hbb hbi
    rw [hbb, hbi, hraw, k1, hcode]
    exact ⟨rfl, k2, k3⟩
  · rw [if_neg hb] at hraw hregs
    have hbb := congrArg Prod.fst hregs
    have hbi := congrArg Prod.snd hregs
    simp only at hbb hbi
    rw [hbb, hbi, hraw, hcode]
    refine ⟨by simp [bytesBits], by omega, by omega⟩

/-- Witness for C2: with 3 bits `101` pending, the 13-bit code `0x1FFF` sends the bytes
`0xBF 0xFF 0x00` and leaves no bit pending. -/
theorem put_bits_preserves_bit_stream_witness :
    written (put_bits 512 4 encoder1
        0x1FFF 13) = [0xBF, 0xFF, 0] ∧
    ∃ E, written (put_bits 512 4
          encoder1 0x1FFF 13) =
        written encoder1 ++ E ∧
      bytesBits (unstuff E) ++
          topBits (put_bits 512 4
              encoder1
              0x1FFF 13).m_bit_buffer
            (32 - (put_bits 512 4
              encoder1
              0x1FFF 13).m_bits_in) =
        topBits 0xA0000000 (32 - 29) ++ bitsMSB 0x1FFF 13 ∧
      25 ≤ (put_bits 512 4 encoder1
          0x1FFF 13).m_bits_in ∧
      (put_bits 512 4 encoder1
          0x1FFF 13).m_bits_in ≤ 32 :=
  ⟨by decide,
    put_bits_preserves_bit_stream 512 4 0
      encoder1 0x1FFF 13
      ⟨rfl, fun _ => rfl, by decide, by decide, by decide⟩ (by decide) (by decide) (by decide)
      (by decide) (by decide) (by decide)⟩

end jpge

namespace jpge

/-! ## C3: the quantization tables -/

theorem quant_entry_eq (Q b : Nat) (h1 : 1 ≤ Q) (h100 : Q ≤ 100) :
    JPGE_MIN (JPGE_MAX (Int.tdiv (((b : Nat) : Int) *
        (if (Q : Int) < 50 then Int.tdiv 5000 (Q : Int) else 200 - (Q : Int) * 2) + 50) 100) 1) 255 =
      ((min (max ((b * (if Q < 50 then 5000 / Q else 200 - 2 * Q) + 50) / 100) 1) 255 : Nat) : Int) := by
  have hq : (if (Q : Int) < 50 then Int.tdiv 5000 (Q : Int) else 200 - (Q : Int) * 2) =
      (((if Q < 50 then 5000 / Q else 200 - 2 * Q) : Nat) : Int) := by
    by_cases h : Q < 50
    · have h' : (Q : Int) < 50 := by exact_mod_cast h
      rw [if_pos h, if_pos h']
      exact (Int.ofNat_tdiv 5000 Q).symm
    · have h' : ¬ (Q : Int) < 50 := by
        intro hh; exact h (by exact_mod_cast hh)
      rw [if_neg h, if_neg h']
      omega
  rw [hq]
  generalize (if Q < 50 then 5000 / Q else 200 - 2 * Q) = s
  have hprod : ((b : Nat) : Int) * ((s : Nat) : Int) + 50 = (((b * s + 50 : Nat)) : Int) := by
    push_cast; ring
  have hdiv : Int.tdiv (((b * s + 50 : Nat)) : Int) 100 = (((b * s + 50) / 100 : Nat) : Int) :=
    (Int.ofNat_tdiv (b * s + 50) 100).symm
  rw [hprod, hdiv]
  generalize (b * s + 50) / 100 = t
  unfold JPGE_MIN JPGE_MAX
  split_ifs <;> omega

end jpge

namespace jpge

/-- C3. For every quality `Q` in `1 .. 100`, each of the two standard base tables and every
index `i` in `0 .. 63`, `compute_quant_table` stores in the 8-bit table the value
`min(max((b_i * s + 50) div 100, 1), 255)`, with `b_i` the `i`-th base entry and
`s = 5000 div Q` when `Q < 50`, `s = 200 - 2 * Q` otherwise; that value lies in `[1, 255]`,
and the 32-bit table holds it shifted left by 18 bits.  Both tables have 64 entries. -/
theorem compute_quant_table_values (Q : Nat) (pSrc : List Nat) (i : Nat)
    (h1 : 1 ≤ Q) (h100 : Q ≤ 100)
    (_hsrc : pSrc = s_std_lum_quant ∨ pSrc = s_std_croma_quant) (hi : i < 64) :
    (compute_quant_table Q pSrc).1.getD i 0 =
        min (max ((pSrc.getD i 0 * (if Q < 50 then 5000 / Q else 200 - 2 * Q) + 50) / 100) 1)
          255 ∧
      1 ≤ (compute_quant_table Q pSrc).1.getD i 0 ∧
      (compute_quant_table Q pSrc).1.getD i 0 ≤ 255 ∧
      (compute_quant_table Q pSrc).2.getD i 0 =
        (((compute_quant_table Q pSrc).1.getD i 0 : Nat) : Int) * 2 ^ 18 ∧
      (compute_quant_table Q pSrc).1.length = 64 ∧
      (compute_quant_table Q pSrc).2.length = 64 := by
  have key := quant_entry_eq Q (pSrc.getD i 0) h1 h100
  rw [List.getD_eq_getElem?_getD] at key
  have e8 : (compute_quant_table Q pSrc).1.getD i 0 =
      min (max ((pSrc.getD i 0 * (if Q < 50 then 5000 / Q else 200 - 2 * Q) + 50) / 100) 1)
        255 := by
    simp only [compute_quant_table, List.getD_eq_getElem?_getD, List.getElem?_map,
      List.getElem?_range hi, Option.map_some', Option.getD_some]
    rw [key]
    omega
  have e32 : (compute_quant_table Q pSrc).2.getD i 0 =
      ((min (max ((pSrc.getD i 0 * (if Q < 50 then 5000 / Q else 200 - 2 * Q) + 50) / 100)
        1) 255 : Nat) : Int) * 2 ^ 18 := by
    simp only [compute_quant_table, List.getD_eq_getElem?_getD, List.getElem?_map,
      List.getElem?_range hi, Option.map_some', Option.getD_some]
    rw [key]
  refine ⟨e8, ?_, ?_, ?_, ?_, ?_⟩
  · rw [e8]; omega
  · rw [e8]; omega
  · rw [e32, e8]
  · simp [compute_quant_table]
  · simp [compute_quant_table]

/-- Witness for C3: quality 60 scales by 80, so the first luminance entry 16 becomes 13. -/
theorem compute_quant_table_values_witness :
    (compute_quant_table 60 s_std_lum_quant).1.getD 0 0 = 13 ∧
    ((compute_quant_table (60 : Nat) s_std_lum_quant).1.getD 0 0 =
        min (max ((s_std_lum_quant.getD 0 0 * (if 60 < 50 then 5000 / 60 else 200 - 2 * 60) + 50)
          / 100) 1) 255 ∧
      1 ≤ (compute_quant_table (60 : Nat) s_std_lum_quant).1.getD 0 0 ∧
      (compute_quant_table (60 : Nat) s_std_lum_quant).1.getD 0 0 ≤ 255 ∧
      (compute_quant_table (60 : Nat) s_std_lum_quant).2.getD 0 0 =
        (((compute_quant_table (60 : Nat) s_std_lum_quant).1.getD 0 0 : Nat) : Int) * 2 ^ 18 ∧
      (compute_quant_table (60 : Nat) s_std_lum_quant).1.length = 64 ∧
      (compute_quant_table (60 : Nat) s_std_lum_quant).2.length = 64) :=
  ⟨by decide,
    compute_quant_table_values 60 s_std_lum_quant 0 (by decide) (by decide) (Or.inl rfl)
      (by decide)⟩

end jpge

namespace jpge

/-! ## Composing emitters -/

theorem OutOk.mono {SIZE B B' : Nat} {o : out_state} (h : OutOk SIZE B o) (hB : B ≤ B') :
    OutOk SIZE B' o :=
  ⟨h.ok, h.acc, h.left_lt, h.ptr_left, Nat.le_trans h.ptr_le hB⟩

theorem Emits.refl (SIZE : Nat) (o : out_state) : Emits SIZE o o [] := by
  intro B h _
  exact ⟨h, by simp⟩

theorem Emits.trans {SIZE : Nat} {o o1 o2 : out_state} {b1 b2 : List Nat}
    (h1 : Emits SIZE o o1 b1) (h2 : Emits SIZE o1 o2 b2) : Emits SIZE o o2 (b1 ++ b2) := by
  intro B h hB
  rw [List.length_append] at hB
  obtain ⟨k1, w1⟩ := h1 B h (by omega)
  obtain ⟨k2, w2⟩ := h2 (B + b1.length) k1 (by omega)
  refine ⟨?_, ?_⟩
  · rw [List.length_append, ← Nat.add_assoc]; exact k2
  · rw [w2, w1, List.append_assoc]

theorem Emits.cast {SIZE : Nat} {o o' : out_state} {b b' : List Nat}
    (h : Emits SIZE o o' b) (hb : b = b') : Emits SIZE o o' b' := hb ▸ h

theorem emit_byte_emits (SIZE COUNT : Nat) (o : out_state) (i : Nat) :
    Emits SIZE o (emit_byte SIZE COUNT o i) [i % 256] := by
  intro B h hB
  exact emit_byte_spec SIZE COUNT B o i h (by simpa using hB)

theorem store2_emits (SIZE B : Nat) (o : out_state) (a b : Nat) (h : OutOk SIZE B o) :
    OutOk SIZE (B + 2) { o with
        m_out_buf_array :=
          store8 (store8 o.m_out_buf_array o.m_out_buf_index o.m_pOut_buf a)
            o.m_out_buf_index (o.m_pOut_buf + 1) b
        m_pOut_buf := o.m_pOut_buf + 2
        m_out_buf_left := sub32 o.m_out_buf_left 2 } ∧
      written { o with
        m_out_buf_array :=
          store8 (store8 o.m_out_buf_array o.m_out_buf_index o.m_pOut_buf a)
            o.m_out_buf_index (o.m_pOut_buf + 1) b
        m_pOut_buf := o.m_pOut_buf + 2
        m_out_buf_left := sub32 o.m_out_buf_left 2 } = written o ++ [a % 256, b % 256] := by
  obtain ⟨hok, hacc, hl, hp, hle⟩ := h
  refine ⟨⟨hok, hacc, sub32_lt _ _, ?_, ?_⟩, ?_⟩
  · simp only [sub32]; omega
  · simp only; omega
  · simp only [written, delivered, pending]
    rw [show o.m_pOut_buf + 2 = (o.m_pOut_buf + 1) + 1 from rfl, pending_store, pending_store]
    simp

theorem emit_word_emits (SIZE COUNT : Nat) (o : out_state) (i : Nat) :
    Emits SIZE o (emit_word SIZE COUNT o i) [i / 2 ^ 8 % 256, i % 256] := by
  intro B h hB
  simp only [List.length_cons, List.length_nil] at hB
  unfold emit_word
  by_cases hlt : o.m_out_buf_left < 2
  · simp only [hlt, if_true]
    obtain ⟨hf, wf⟩ := flush_spec SIZE COUNT B o h (by omega)
    have := store2_emits SIZE B _ (i / 2 ^ 8) i (hf.mono (Nat.zero_le B))
    rw [wf] at this
    exact this
  · simp only [hlt, if_false]
    exact store2_emits SIZE B o (i / 2 ^ 8) i h

theorem emit_marker_emits (SIZE COUNT : Nat) (o : out_state) (m : Nat) :
    Emits SIZE o (emit_marker SIZE COUNT o m) [0xFF, m % 256] := by
  intro B h hB
  simp only [List.length_cons, List.length_nil] at hB
  unfold emit_marker
  by_cases hlt : o.m_out_buf_left < 2
  · simp only [hlt, if_true]
    obtain ⟨hf, wf⟩ := flush_spec SIZE COUNT B o h (by omega)
    have := store2_emits SIZE B _ 0xFF m (hf.mono (Nat.zero_le B))
    rw [wf] at this
    exact this
  · simp only [hlt, if_false]
    exact store2_emits SIZE B o 0xFF m h

theorem foldl_emits {α : Type} (SIZE : Nat) (f : out_state → α → out_state) (g : α → List Nat)
    (hf : ∀ o a, Emits SIZE o (f o a) (g a)) (l : List α) :
    ∀ o, Emits SIZE o (l.foldl f o) (l.flatMap g) := by
  induction l with
  | nil => intro o; exact Emits.refl SIZE o
  | cons a l ih =>
    intro o
    rw [List.foldl_cons, List.flatMap_cons]
    exact (hf o a).trans (ih (f o a))

end jpge

namespace jpge

/-! ## The marker segments written by `reinit` -/

theorem emit_jfif_app0_emits (SIZE COUNT : Nat) (o : out_state) :
    Emits SIZE o (emit_jfif_app0 SIZE COUNT o) (segment 0xE0 app0_payload) := by
  unfold emit_jfif_app0
  refine Emits.cast
    ((emit_marker_emits SIZE COUNT _ _).trans <| (emit_word_emits SIZE COUNT _ _).trans <|
      (emit_byte_emits SIZE COUNT _ _).trans <| (emit_byte_emits SIZE COUNT _ _).trans <|
      (emit_byte_emits SIZE COUNT _ _).trans <| (emit_byte_emits SIZE COUNT _ _).trans <|
      (emit_byte_emits SIZE COUNT _ _).trans <| (emit_byte_emits SIZE COUNT _ _).trans <|
      (emit_byte_emits SIZE COUNT _ _).trans <| (emit_byte_emits SIZE COUNT _ _).trans <|
      (emit_word_emits SIZE COUNT _ _).trans <| (emit_word_emits SIZE COUNT _ _).trans <|
      (emit_byte_emits SIZE COUNT _ _).trans (emit_byte_emits SIZE COUNT _ _)) ?_
  rfl

theorem flatMap_singleton_map {α : Type} (l : List α) (f : α → Nat) :
    l.flatMap (fun a => [f a]) = l.map f := by
  induction l with
  | nil => rfl
  | cons a l ih => simp [List.flatMap_cons, ih]

theorem emit_dqt_one (SIZE COUNT : Nat) (e : jpeg_encoder) (i : Nat) (hi : i < 256)
    (o : out_state) :
    Emits SIZE o (emit_dqt_table SIZE COUNT e o i) (segment 0xDB (dqt_payload e i)) := by
  unfold emit_dqt_table
  refine Emits.cast
    ((emit_marker_emits SIZE COUNT _ _).trans <| (emit_word_emits SIZE COUNT _ _).trans <|
      (emit_byte_emits SIZE COUNT _ _).trans
        (foldl_emits SIZE _ (fun j => [e.m_quantization8_tables i j % 256])
          (fun o j => emit_byte_emits SIZE COUNT o _) (List.range 64) _)) ?_
  rw [flatMap_singleton_map, Nat.mod_eq_of_lt hi]
  simp [segment, dqt_payload, M_DQT]

theorem emit_dqt_emits (SIZE COUNT : Nat) (e : jpeg_encoder) (o : out_state) :
    Emits SIZE o (emit_dqt SIZE COUNT e o)
      (if e.m_num_components = 3 then
        segment 0xDB (dqt_payload e 0) ++ segment 0xDB (dqt_payload e 1)
      else segment 0xDB (dqt_payload e 0)) := by
  unfold emit_dqt
  by_cases hn : e.m_num_components = 3
  · rw [if_pos hn, if_pos hn]
    have h2 : List.range 2 = [0, 1] := rfl
    rw [h2, List.foldl_cons, List.foldl_cons, List.foldl_nil]
    exact (emit_dqt_one SIZE COUNT e 0 (Nat.zero_lt_succ _) o).trans
      (emit_dqt_one SIZE COUNT e 1 (Nat.one_lt_succ_succ _) _)
  · rw [if_neg hn, if_neg hn]
    have h1 : List.range 1 = [0] := rfl
    rw [h1, List.foldl_cons, List.foldl_nil]
    exact emit_dqt_one SIZE COUNT e 0 (Nat.zero_lt_succ _) o

end jpge

namespace jpge

theorem emit_sof_emits (SIZE COUNT : Nat) (e : jpeg_encoder) (o : out_state)
    (hn : e.m_num_components = 1 ∨ e.m_num_components = 3)
    (hx : e.m_image_x ≤ 65535) (hy : e.m_image_y ≤ 65535) :
    Emits SIZE o (emit_sof SIZE COUNT e o) (segment 0xC0 (sof_payload e)) := by
  unfold emit_sof
  refine Emits.cast
    ((emit_marker_emits SIZE COUNT _ _).trans <| (emit_word_emits SIZE COUNT _ _).trans <|
      (emit_byte_emits SIZE COUNT _ _).trans <| (emit_word_emits SIZE COUNT _ _).trans <|
      (emit_word_emits SIZE COUNT _ _).trans <| (emit_byte_emits SIZE COUNT _ _).trans
        (foldl_emits SIZE _
          (fun i => [(i + 1) % 256, (e.m_comp_h_samp i * 2 ^ 4 + e.m_comp_v_samp i) % 256,
            (if i > 0 then 1 else 0) % 256])
          (fun o i => (emit_byte_emits SIZE COUNT _ _).trans <|
            (emit_byte_emits SIZE COUNT _ _).trans (emit_byte_emits SIZE COUNT _ _))
          (List.range e.m_num_components) _)) ?_
  have hx1 : e.m_image_x / 2 ^ 8 % 256 = e.m_image_x / 256 := by omega
  have hy1 : e.m_image_y / 2 ^ 8 % 256 = e.m_image_y / 256 := by omega
  rw [hx1, hy1]
  rcases hn with hn | hn
  · rw [hn]
    have : List.range 1 = [0] := rfl
    simp [segment, sof_payload, M_SOF0, hn, this]
  · rw [hn]
    have : List.range 3 = [0, 1, 2] := rfl
    simp [segment, sof_payload, M_SOF0, hn, this]

theorem emit_sos_emits (SIZE COUNT : Nat) (e : jpeg_encoder) (o : out_state)
    (hn : e.m_num_components = 1 ∨ e.m_num_components = 3) :
    Emits SIZE o (emit_sos SIZE COUNT e o) (segment 0xDA (sos_payload e)) := by
  unfold emit_sos
  refine Emits.cast
    ((emit_marker_emits SIZE COUNT _ _).trans <| (emit_word_emits SIZE COUNT _ _).trans <|
      (emit_byte_emits SIZE COUNT _ _).trans <|
      (foldl_emits SIZE _
          (fun i => [(i + 1) % 256, if i = 0 then 0 else 0x11])
          (fun o i => by
            by_cases h0 : i = 0
            · simp only [h0, if_true]
              exact (emit_byte_emits SIZE COUNT _ _).trans (emit_byte_emits SIZE COUNT _ _)
            · simp only [h0, if_false]
              exact (emit_byte_emits SIZE COUNT _ _).trans (emit_byte_emits SIZE COUNT _ _))
          (List.range e.m_num_components) _).trans <|
      (emit_byte_emits SIZE COUNT _ _).trans <| (emit_byte_emits SIZE COUNT _ _).trans
        (emit_byte_emits SIZE COUNT _ _)) ?_
  rcases hn with hn | hn
  · rw [hn]
    have : List.range 1 = [0] := rfl
    simp [segment, sos_payload, M_SOS, hn, this]
  · rw [hn]
    have : List.range 3 = [0, 1, 2] := rfl
    simp [segment, sos_payload, M_SOS, hn, this]

theorem foldl_add_eq_sum (bits : Nat → Nat) (l : List Nat) (a : Nat) :
    l.foldl (fun length i => length + bits i) a = a + (l.map bits).sum := by
  induction l generalizing a with
  | nil => simp
  | cons x l ih => simp [List.foldl_cons, ih, Nat.add_assoc]

theorem sum_map_le (bits : Nat → Nat) (c : Nat) (hb : ∀ i, bits i ≤ c) (l : List Nat) :
    (l.map bits).sum ≤ c * l.length := by
  induction l with
  | nil => simp
  | cons x l ih =>
    simp only [List.map_cons, List.sum_cons, List.length_cons]
    have := hb x
    rw [Nat.mul_succ]
    omega

theorem emit_dht_emits (SIZE COUNT : Nat) (e : jpeg_encoder) (o : out_state) (t index : Nat)
    (ac : Bool) (hidx : index ≤ 1) (hbits : ∀ i, e.m_huff_bits t i ≤ 255) :
    Emits SIZE o (emit_dht SIZE COUNT o (e.m_huff_bits t) (e.m_huff_val t) index ac)
      (segment 0xC4 (dht_payload e t index (if ac then 1 else 0))) := by
  unfold emit_dht
  simp only [foldl_add_eq_sum, Nat.zero_add]
  have hsum := sum_map_le (e.m_huff_bits t) 255 hbits (List.range' 1 16)
  simp only [List.length_range'] at hsum
  generalize hL : ((List.range' 1 16).map (e.m_huff_bits t)).sum = L at hsum
  refine Emits.cast
    ((emit_marker_emits SIZE COUNT _ _).trans <| (emit_word_emits SIZE COUNT _ _).trans <|
      (emit_byte_emits SIZE COUNT _ _).trans <|
      (foldl_emits SIZE _ (fun i => [e.m_huff_bits t i % 256])
        (fun o i => emit_byte_emits SIZE COUNT o _) (List.range' 1 16) _).trans
        (foldl_emits SIZE _ (fun i => [e.m_huff_val t i % 256])
          (fun o i => emit_byte_emits SIZE COUNT o _) (List.range L) _)) ?_
  rw [flatMap_singleton_map, flatMap_singleton_map]
  have h1 : (L + 2 + 1 + 16) / 2 ^ 8 % 256 = (L + 19) / 256 := by omega
  have h2 : (L + 2 + 1 + 16) % 256 = (L + 19) % 256 := by omega
  have h3 : (index + (if ac = true then 1 else 0) * 2 ^ 4) % 256 =
      index + (if ac = true then 1 else 0) * 16 := by
    cases ac <;> simp <;> omega
  rw [h1, h2, h3]
  simp only [segment, dht_payload, hL, M_DHT, List.length_cons, List.length_append,
    List.length_map, List.length_range', List.length_range]
  have h4 : 16 + L + 1 + 2 = L + 19 := by omega
  rw [h4]
  simp

theorem emit_dhts_emits (SIZE COUNT : Nat) (e : jpeg_encoder) (o : out_state)
    (hbits : ∀ t i, e.m_huff_bits t i ≤ 255) :
    Emits SIZE o (emit_dhts SIZE COUNT e o)
      (if e.m_num_components = 3 then
        segment 0xC4 (dht_payload e 0 0 0) ++ segment 0xC4 (dht_payload e 2 0 1) ++
        segment 0xC4 (dht_payload e 1 1 0) ++ segment 0xC4 (dht_payload e 3 1 1)
      else segment 0xC4 (dht_payload e 0 0 0) ++ segment 0xC4 (dht_payload e 2 0 1)) := by
  unfold emit_dhts
  have a0 := fun o => emit_dht_emits SIZE COUNT e o 0 0 false (by omega) (hbits 0)
  have a2 := fun o => emit_dht_emits SIZE COUNT e o 2 0 true (by omega) (hbits 2)
  have a1 := fun o => emit_dht_emits SIZE COUNT e o 1 1 false (by omega) (hbits 1)
  have a3 := fun o => emit_dht_emits SIZE COUNT e o 3 1 true (by omega) (hbits 3)
  simp only [Bool.false_eq_true, if_false, if_true] at a0 a1 a2 a3
  by_cases hn : e.m_num_components = 3
  · simp only [hn, if_true]
    refine Emits.cast ((a0 _).trans <| (a2 _).trans <| (a1 _).trans (a3 _)) ?_
    simp only [List.append_assoc]
  · simp only [hn, if_false]
    exact (a0 _).trans (a2 _)

end jpge

namespace jpge

theorem dht_payload_length (e : jpeg_encoder) (t index ac : Nat)
    (hbits : ∀ i, e.m_huff_bits t i ≤ 255) : (dht_payload e t index ac).length ≤ 4097 := by
  have hsum := sum_map_le (e.m_huff_bits t) 255 hbits (List.range' 1 16)
  simp only [List.length_range'] at hsum
  simp only [dht_payload, List.length_cons, List.length_append, List.length_map,
    List.length_range', List.length_range]
  omega

theorem segment_length (m : Nat) (p : List Nat) : (segment m p).length = p.length + 4 := by
  simp [segment]

theorem jpeg_header_length (e : jpeg_encoder)
    (hn : e.m_num_components = 1 ∨ e.m_num_components = 3)
    (hbits : ∀ t i, e.m_huff_bits t i ≤ 255) : (jpeg_header e).length < 2 ^ 31 := by
  have d0 := dht_payload_length e 0 0 0 (hbits 0)
  have d1 := dht_payload_length e 1 1 0 (hbits 1)
  have d2 := dht_payload_length e 2 0 1 (hbits 2)
  have d3 := dht_payload_length e 3 1 1 (hbits 3)
  rcases hn with hn | hn
  · have : List.range 1 = [0] := rfl
    simp [jpeg_header, hn, segment_length, app0_payload, dqt_payload, sof_payload, sos_payload,
      this]
    omega
  · have : List.range 3 = [0, 1, 2] := rfl
    simp [jpeg_header, hn, segment_length, app0_payload, dqt_payload, sof_payload, sos_payload,
      this]
    omega

/-- The marker emitters of `reinit`, run one after the other from an output side in order,
append exactly the header. -/
theorem header_emits (SIZE COUNT : Nat) (e : jpeg_encoder)
    (hn : e.m_num_components = 1 ∨ e.m_num_components = 3)
    (hx : e.m_image_x ≤ 65535) (hy : e.m_image_y ≤ 65535)
    (hbits : ∀ t i, e.m_huff_bits t i ≤ 255) :
    Emits SIZE e.toout_state (emit_header SIZE COUNT e) (jpeg_header e) := by
  unfold emit_header
  refine Emits.cast
    ((emit_marker_emits SIZE COUNT _ _).trans <| (emit_jfif_app0_emits SIZE COUNT _).trans <|
      (emit_dqt_emits SIZE COUNT e _).trans <| (emit_sof_emits SIZE COUNT e _ hn hx hy).trans <|
      (emit_dhts_emits SIZE COUNT e _ hbits).trans (emit_sos_emits SIZE COUNT e _ hn)) ?_
  simp only [jpeg_header, M_SOI, List.append_assoc]

theorem jpeg_header_set_out (e : jpeg_encoder) (o : out_state) :
    jpeg_header (set_out e o) = jpeg_header e := rfl

theorem header_segments_set_out (e : jpeg_encoder) (o : out_state) :
    header_segments (set_out e o) = header_segments e := rfl

theorem reinit_eq (SIZE COUNT : Nat) (e : jpeg_encoder) (quality : Int)
    (hlines : e.m_mcu_lines_0 = true) :
    reinit SIZE COUNT e quality =
      ((emit_header SIZE COUNT (reinit_prepare SIZE e quality)).m_all_stream_writes_succeeded,
        set_out (reinit_prepare SIZE e quality)
          (emit_header SIZE COUNT (reinit_prepare SIZE e quality))) := by
  have hc : ¬ ((!e.m_mcu_lines_0) = true) := by rw [hlines]; simp
  unfold reinit
  exact if_neg hc

theorem reinit_prepare_spec (SIZE : Nat) (e : jpeg_encoder) (quality : Int) :
    (reinit_prepare SIZE e quality).m_num_components = e.m_num_components ∧
    (reinit_prepare SIZE e quality).m_image_x = e.m_image_x ∧
    (reinit_prepare SIZE e quality).m_image_y = e.m_image_y ∧
    (reinit_prepare SIZE e quality).m_huff_bits = e.m_huff_bits ∧
    ((reinit_prepare SIZE e quality).m_all_stream_writes_succeeded =
        e.m_all_stream_writes_succeeded ∧
      (reinit_prepare SIZE e quality).m_pStream.accepts = e.m_pStream.accepts ∧
      (reinit_prepare SIZE e quality).m_out_buf_left = SIZE % 2 ^ 32 ∧
      (reinit_prepare SIZE e quality).m_pOut_buf = 0) ∧
    (reinit_prepare SIZE e quality).m_pStream.log = e.m_pStream.log := by
  unfold reinit_prepare
  by_cases h : e.m_last_quality ≠ quality
  · simp only [h, if_true, ne_eq, not_false_eq_true, and_self]
  · simp only [h, if_false, ne_eq, not_false_eq_true, and_self]

end jpge

namespace jpge

theorem read_segments_segment (fuel m : Nat) (p rest : List Nat) (hp : p.length + 2 < 65536) :
    read_segments (fuel + 1) (segment m p ++ rest) =
      (read_segments fuel rest).map (fun l => (m, p) :: l) := by
  have hL : (p.length + 2) / 256 * 256 + (p.length + 2) % 256 = p.length + 2 := by omega
  have hform : segment m p ++ rest =
      0xFF :: m :: ((p.length + 2) / 256) :: ((p.length + 2) % 256) :: (p ++ rest) := rfl
  have h2 : p.length + 2 - 2 = p.length := by omega
  have hcond : (0xFF : Nat) = 0xFF ∧ 2 ≤ p.length + 2 ∧
      p.length ≤ (p ++ rest).length := by
    refine ⟨rfl, by omega, ?_⟩
    rw [List.length_append]; omega
  rw [hform, read_segments, hL, h2, if_pos hcond, List.drop_left, List.take_left]

theorem sof_payload_length (e : jpeg_encoder)
    (hn : e.m_num_components = 1 ∨ e.m_num_components = 3) :
    (sof_payload e).length + 2 < 65536 := by
  have h1 : List.range 1 = [0] := rfl
  have h3 : List.range 3 = [0, 1, 2] := rfl
  rcases hn with hn | hn <;> simp [sof_payload, hn, h1, h3]

theorem sos_payload_length (e : jpeg_encoder)
    (hn : e.m_num_components = 1 ∨ e.m_num_components = 3) :
    (sos_payload e).length + 2 < 65536 := by
  have h1 : List.range 1 = [0] := rfl
  have h3 : List.range 3 = [0, 1, 2] := rfl
  rcases hn with hn | hn <;> simp [sos_payload, hn, h1, h3]

end jpge

namespace jpge

theorem jpeg_header_segments (e : jpeg_encoder)
    (hn : e.m_num_components = 1 ∨ e.m_num_components = 3)
    (hbits : ∀ t i, e.m_huff_bits t i ≤ 255) :
    (jpeg_header e).take 2 = [0xFF, 0xD8] ∧
      read_segments 10 ((jpeg_header e).drop 2) = some (header_segments e) := by
  have d0 := dht_payload_length e 0 0 0 (hbits 0)
  have d1 := dht_payload_length e 1 1 0 (hbits 1)
  have d2 := dht_payload_length e 2 0 1 (hbits 2)
  have d3 := dht_payload_length e 3 1 1 (hbits 3)
  have ha : app0_payload.length + 2 < 65536 := by simp [app0_payload]
  have hq : ∀ i, (dqt_payload e i).length + 2 < 65536 := by
    intro i; simp [dqt_payload]
  have hf := sof_payload_length e hn
  have hs := sos_payload_length e hn
  refine ⟨by simp [jpeg_header], ?_⟩
  have hnil : ∀ l : List Nat, l = l ++ [] := fun l => (List.append_nil l).symm
  rcases hn with hn | hn
  · have h3 : ¬ e.m_num_components = 3 := by omega
    simp only [jpeg_header, header_segments, h3, if_false, List.append_assoc, List.cons_append,
      List.nil_append, List.drop_succ_cons, List.drop_zero]
    rw [read_segments_segment _ _ _ _ ha, read_segments_segment _ _ _ _ (hq 0),
      read_segments_segment _ _ _ _ hf, read_segments_segment _ _ _ _ (by omega),
      read_segments_segment _ _ _ _ (by omega), hnil (segment 0xDA (sos_payload e)),
      read_segments_segment _ _ _ _ hs]
    simp [read_segments]
  · simp only [jpeg_header, header_segments, hn, if_true, List.append_assoc, List.cons_append,
      List.nil_append, List.drop_succ_cons, List.drop_zero]
    rw [read_segments_segment _ _ _ _ ha, read_segments_segment _ _ _ _ (hq 0),
      read_segments_segment _ _ _ _ (hq 1),
      read_segments_segment _ _ _ _ hf, read_segments_segment _ _ _ _ (by omega),
      read_segments_segment _ _ _ _ (by omega), read_segments_segment _ _ _ _ (by omega),
      read_segments_segment _ _ _ _ (by omega), hnil (segment 0xDA (sos_payload e)),
      read_segments_segment _ _ _ _ hs]
    simp [read_segments]

end jpge

namespace jpge

/-- The result pair of `reinit`, for any output state `o` reached from the prepared encoder
by emitting its header. -/
theorem reinit_result (SIZE : Nat) (e prep : jpeg_encoder) (o : out_state) (B : Nat)
    (k : OutOk SIZE B o)
    (w : written o = written prep.toout_state ++ jpeg_header prep)
    (hdel : written prep.toout_state = delivered e)
    (s1 : (jpeg_header prep).take 2 = [0xFF, 0xD8])
    (s2 : read_segments 10 ((jpeg_header prep).drop 2) = some (header_segments prep)) :
    (o.m_all_stream_writes_succeeded, set_out prep o).1 = true ∧
      written (o.m_all_stream_writes_succeeded, set_out prep o).2 =
        delivered e ++ jpeg_header (o.m_all_stream_writes_succeeded, set_out prep o).2 ∧
      (jpeg_header (o.m_all_stream_writes_succeeded, set_out prep o).2).take 2 = [0xFF, 0xD8] ∧
      read_segments 10 ((jpeg_header (o.m_all_stream_writes_succeeded, set_out prep o).2).drop 2) =
        some (header_segments (o.m_all_stream_writes_succeeded, set_out prep o).2) := by
  show o.m_all_stream_writes_succeeded = true ∧
    written o = delivered e ++ jpeg_header (set_out prep o) ∧
    (jpeg_header (set_out prep o)).take 2 = [0xFF, 0xD8] ∧
    read_segments 10 ((jpeg_header (set_out prep o)).drop 2) =
      some (header_segments (set_out prep o))
  rw [jpeg_header_set_out, header_segments_set_out, ← hdel]
  exact ⟨k.ok, w, s1, s2⟩

/-! ## C4: the header written by `reinit` -/

/-- C4. For an allocated encoder with 1 or 3 components, an image size up to 65535 x 65535,
`uint8` Huffman bit counts and a sink that accepts every write, `reinit` succeeds and the
bytes it writes are, after what the sink had already received, SOI followed by the marker
segments APP0, DQT (one per quantization table), SOF0, DHT (one per Huffman table) and SOS
in this order; every segment carries a big-endian 16-bit length field equal to 2 plus the
number of its payload bytes, so that reading the header segment by segment along the length
fields yields exactly these segments. -/
theorem reinit_writes_header (SIZE COUNT : Nat) (e : jpeg_encoder) (quality : Int)
    (hlines : e.m_mcu_lines_0 = true)
    (hok : e.m_all_stream_writes_succeeded = true)
    (hacc : ∀ n, e.m_pStream.accepts n = true)
    (hn : e.m_num_components = 1 ∨ e.m_num_components = 3)
    (hx : e.m_image_x ≤ 65535) (hy : e.m_image_y ≤ 65535)
    (hbits : ∀ t i, e.m_huff_bits t i ≤ 255) :
    (reinit SIZE COUNT e quality).1 = true ∧
      written (reinit SIZE COUNT e quality).2 =
        delivered e ++ jpeg_header (reinit SIZE COUNT e quality).2 ∧
      (jpeg_header (reinit SIZE COUNT e quality).2).take 2 = [0xFF, 0xD8] ∧
      read_segments 10 ((jpeg_header (reinit SIZE COUNT e quality).2).drop 2) =
        some (header_segments (reinit SIZE COUNT e quality).2) := by
  rw [reinit_eq SIZE COUNT e quality hlines]
  obtain ⟨p1, p2, p3, p4, p5, p6⟩ := reinit_prepare_spec SIZE e quality
  generalize reinit_prepare SIZE e quality = prep at p1 p2 p3 p4 p5 p6 ⊢
  have hn3 : prep.m_num_components = 1 ∨ prep.m_num_components = 3 := by rw [p1]; exact hn
  have hb3 : ∀ t i, prep.m_huff_bits t i ≤ 255 := by rw [p4]; exact hbits
  have hout3 : OutOk SIZE 0 prep.toout_state := by
    refine ⟨?_, ?_, ?_, ?_, ?_⟩
    · rw [p5.1]; exact hok
    · rw [p5.2.1]; exact hacc
    · rw [p5.2.2.1]; exact Nat.mod_lt _ (by norm_num)
    · rw [p5.2.2.1, p5.2.2.2]; omega
    · rw [p5.2.2.2]
  have hdel : written prep.toout_state = delivered e := by
    simp only [written, delivered, pending, p5.2.2.2, p6, List.range_zero, List.map_nil,
      List.append_nil]
  have hlen := jpeg_header_length prep hn3 hb3
  obtain ⟨k, w⟩ := header_emits SIZE COUNT prep hn3 (by rw [p2]; exact hx)
    (by rw [p3]; exact hy) hb3 0 hout3 (by omega)
  obtain ⟨s1, s2⟩ := jpeg_header_segments prep hn3 hb3
  exact reinit_result SIZE e prep _ _ k w hdel s1 s2

end jpge

namespace jpge

/-- Witness for C4: a 240 x 135 image with three components, 512-byte output buffers. -/
theorem reinit_writes_header_witness :
    (reinit 512 4 (encoder0 512) 60).1 = true ∧
      written (reinit 512 4 (encoder0 512) 60).2 =
        delivered (encoder0 512) ++ jpeg_header (reinit 512 4 (encoder0 512) 60).2 ∧
      (jpeg_header (reinit 512 4 (encoder0 512) 60).2).take 2 = [0xFF, 0xD8] ∧
      read_segments 10 ((jpeg_header (reinit 512 4 (encoder0 512) 60).2).drop 2) =
        some (header_segments (reinit 512 4 (encoder0 512) 60).2) :=
  reinit_writes_header 512 4 (encoder0 512) 60 rfl rfl (fun _ => rfl) (Or.inr rfl)
    (by decide) (by decide) (fun _ _ => Nat.zero_le _)

end jpge
